import Mathlib

/-!
Verification of the SPR (Symbolic Pattern Recognition) analysis code
(`SPR.py`): a shallow embedding of its data model and operations, with
theorems about ngram generation, PTP-matrix construction, the sparsity
stopping rule, prediction, simulation and the inter-model distance.

Python strings are embedded as `List Char`, integer counts as `Nat`,
floating-point frequencies and thresholds as `ℚ` (exact arithmetic in
place of IEEE floats), and raised exceptions as `Except` errors.
-/

namespace SPR

/-- Embedding of `zip(*ls)` followed by row collection: a list of rows,
row `q` holding the `q`-th element of every list in `ls`; the number of
rows is the length of the shortest list, as for Python's `zip`. -/
def minLen {α : Type} : List (List α) → Nat
  | [] => 0
  | l :: rest => rest.foldl (fun m r => min m r.length) l.length

/-- Row `q` of the transposed list-of-lists, for `q` below `minLen`. -/
def pyZip {α : Type} [Inhabited α] (ls : List (List α)) : List (List α) :=
  (List.range (minLen ls)).map (fun q => ls.map (fun l => l.getD q default))

/-- Embedding of Python's negative-slice `s[-k:]`: the last `k` elements
(all of `s` when `k = 0`, matching `s[-0:] = s[0:]`, or when `k` exceeds
the length). -/
def pyLastSlice {α : Type} (s : List α) (k : Nat) : List α :=
  if k = 0 then s else s.drop (s.length - k)

/-- Embedding of `tmp.sort()` on a list of single-character strings:
Python sorts by the native character order. -/
def charSort (l : List Char) : List Char :=
  List.insertionSort (· ≤ ·) l

/-- Boolean lexicographic comparison of Python strings (character
order), used to embed `np.unique`'s sorted output on string arrays. -/
def lexLe : List Char → List Char → Bool
  | [], _ => true
  | _ :: _, [] => false
  | a :: as, b :: bs => if a < b then true else if a = b then lexLe as bs else false

/-- Embedding of `np.unique` on an array of strings: sorted distinct
values. -/
def npUniquePats (l : List (List Char)) : List (List Char) :=
  (List.insertionSort (fun a b => lexLe a b = true) l).dedup

/-- Embedding of `np.unique` on an array of characters: sorted distinct
values. -/
def npUniqueChars (l : List Char) : List Char :=
  (List.insertionSort (· ≤ ·) l).dedup

/-! ## `MakenGrams` (SPR.py lines 389-453) -/

/-- The per-position column lists built by `MakenGrams`' first loop: for
position `cnt` in `range(L)`, `alpha*letrepts` is sorted and repeated
`arrrepts` times, with `letrepts = n_s**cnt` and
`arrrepts = n_s**(L-1-cnt)`. -/
def makeCols (alpha : List Char) (L : Nat) : List (List Char) :=
  (List.range L).map (fun cnt =>
    (List.replicate (alpha.length ^ (L - 1 - cnt))
      (charSort ((List.replicate (alpha.length ^ cnt) alpha).flatten))).flatten)

/-- Embedding of `[''.join(i) for i in zip(*cols[::-1])]`: the columns
are reversed and transposed, each row read off as one pattern. -/
def rowsOf (cols : List (List Char)) : List (List Char) :=
  pyZip cols.reverse

/-- The single-length branch of `MakenGrams` (`only=True`): the list of
`maxn_p`-grams.  A non-positive `maxn_p` makes both loops empty, as in
Python. -/
def MakenGramsOnly (alpha : List Char) (maxn_p : Int) : List (List Char) :=
  rowsOf (makeCols alpha maxn_p.toNat)

/-- The tear-down loop of `MakenGrams` (`for cnt in range(maxn_p-1,1,-1)`):
at each step the last column is removed, every remaining column keeps its
first `n_s**cnt` elements, and the rows of the reduced columns are
collected. -/
def tearDown (alpha : List Char) : List (List Char) → Nat → List (List (List Char))
  | _, 0 => []
  | _, 1 => []
  | cols, cnt + 2 =>
    let cols2 := (cols.dropLast).map (fun col => col.take (alpha.length ^ (cnt + 2)))
    rowsOf cols2 :: tearDown alpha cols2 (cnt + 1)

/-- The all-lengths branch of `MakenGrams` (`only=False`): the longest
ngram list is built first, shorter ones are torn down from it, the
alphabet itself is appended as the 1-gram list, and the whole collection
is reversed.  For `maxn_p <= 0` the loops run zero times, leaving the
rows of no columns (an empty list) plus the alphabet. -/
def MakenGramsFull (alpha : List Char) (maxn_p : Int) : List (List (List Char)) :=
  let n := maxn_p.toNat
  let cols := makeCols alpha n
  ((rowsOf cols :: tearDown alpha cols (n - 1)) ++ [alpha.map (fun c => [c])]).reverse

/-- The ngram list the all-lengths `MakenGrams` output holds for length
`L` (1-based), as indexed by `BuildPTPs` and `Predict`. -/
def ngramListFor (alpha : List Char) (maxn_p : Int) (L : Nat) : List (List Char) :=
  (MakenGramsFull alpha maxn_p).getD (L - 1) []


/-! ## `HashSearch` (from the separate `HashSubstringSearch` module) -/

/-- The length-`L` window of `seq` starting at `i`. -/
def window (seq : List Char) (i L : Nat) : List Char :=
  (seq.drop i).take L

/-- Polynomial rolling hash of a string under modulus `p` and base `x`. -/
def polyHash (p x : Nat) (s : List Char) : Nat :=
  s.foldl (fun h c => (h * x + c.toNat) % p) 0

/-- Modelled from the spec: the repository's `HashSubstringSearch` module
(imported by `SPR.py` but not part of its sources) whose `HashSearch`
function is specified in section 4.1 (PatternSearch): every length-`L`
window whose rolling hash matches the pattern's hash is a candidate, each
candidate is verified character-by-character before acceptance, and a
zero-length or over-long pattern yields an empty result. -/
def HashSearch (seq pat : List Char) (p x : Nat) : List Nat :=
  let L := pat.length
  if L = 0 ∨ seq.length < L then []
  else
    (List.range (seq.length - L + 1)).filter (fun i =>
      polyHash p x (window seq i L) = polyHash p x pat ∧ window seq i L = pat)


/-! ## `BuildPTP` (SPR.py lines 455-525) -/

/-- The following characters of all occurrences at `indxs`:
`[sequence[i+n_p] for i in indxs if i+n_p+1 <= n]`. -/
def followers (seq : List Char) (n_p : Nat) (indxs : List Nat) : List Char :=
  (indxs.filter (fun idx => idx + n_p + 1 ≤ seq.length)).map
    (fun idx => seq.getD (idx + n_p) default)

/-- One row update `PTP[j][i] = freqs[1][freqs[0]==alph][0]`: the first
unique-character entry equal to `alph` provides the count; when the mask
selects nothing the `IndexError` is swallowed and the row is unchanged. -/
def fillRow (row : List ℚ) (i : Nat) (uniqCnts : List (Char × Nat)) (alph : Char) : List ℚ :=
  match uniqCnts.filter (fun pc => pc.1 = alph) with
  | [] => row
  | pc :: _ => row.set i (pc.2 : ℚ)

/-- The body of `BuildPTP`'s search loop for one candidate `(i, ngram)`:
occurrences are located, following characters tabulated via `np.unique`,
the `i`-th column of every per-symbol row written, and the found
patterns `ngram+alph` appended. -/
def buildStep (alpha seq : List Char) (p x n_p : Nat)
    (st : List (List ℚ) × List (List Char)) (ig : Nat × List Char) :
    List (List ℚ) × List (List Char) :=
  let indxs := HashSearch seq ig.2 p x
  let chars := followers seq n_p indxs
  let uniq := npUniqueChars chars
  if uniq.isEmpty then st
  else
    let uniqCnts := uniq.map (fun c => (c, chars.count c))
    (List.zipWith (fun alph row => fillRow row ig.1 uniqCnts alph) alpha st.1,
     st.2 ++ uniq.map (fun c => ig.2 ++ [c]))

/-- The search loop of `BuildPTP`: the candidate list and its index
list are zipped and folded over, starting from the all-zero count rows
and an empty found-pattern list.  The `ngrams.index(i)` lookup of the
reduced-candidate branch is embedded by `findIdx` (first index of an
equal element; `len(ngrams)` when absent, where Python would raise
`ValueError`). -/
def buildFold (alpha seq : List Char) (p x : Nat)
    (ngrams : List (List Char)) (ngramsRed : Option (List (List Char))) :
    List (List ℚ) × List (List Char) :=
  let n_p := (ngrams.getD 0 []).length
  let searchMe := match ngramsRed with
    | none => ngrams
    | some red => red
  let ngramsInd := match ngramsRed with
    | none => List.range ngrams.length
    | some red => red.map (fun g => ngrams.findIdx (fun h => h = g))
  let init : List (List ℚ) × List (List Char) :=
    (List.replicate alpha.length (List.replicate ngrams.length (0 : ℚ)), [])
  (ngramsInd.zip searchMe).foldl (buildStep alpha seq p x n_p) init

/-- The totals row `tots = [sum(i) for i in zip(*PTP)]`. -/
def buildTots (counts : List (List ℚ)) : List ℚ :=
  (pyZip counts).map List.sum

/-- The relative-frequency rows
`[i/t if t != 0 else 0.0 for i,t in zip(col,tots)]`, one per count row. -/
def buildRel (counts : List (List ℚ)) (tots : List ℚ) : List (List ℚ) :=
  counts.map (fun col =>
    List.zipWith (fun i t => if t ≠ 0 then i / t else (0 : ℚ)) col tots)

/-- Embedding of `BuildPTP`: returns the full PTP matrix (the `n_s`
per-symbol count rows, the totals row, then the `n_s` relative-frequency
rows, column `r` belonging to `ngrams[r]`) and the found patterns. -/
def BuildPTP (alpha seq : List Char) (p x : Nat)
    (ngrams : List (List Char)) (ngramsRed : Option (List (List Char))) :
    List (List ℚ) × List (List Char) :=
  let res := buildFold alpha seq p x ngrams ngramsRed
  let tots := buildTots res.1
  ((res.1 ++ [tots]) ++ buildRel res.1 tots, res.2)


/-! ## `BuildPTPs` (SPR.py lines 333-387) and the analysis state -/

/-- The fields of an `SPRanal` object after `BuildPTPs` has run, as read
by `Predict`, `Simulate` and `Distance`: the alphabet, the sequence, the
hash parameters, the retained scale count `n_p`, the retained PTP
matrices and their ngram lists, and the stored (truncated) sparsity
table columns. -/
structure SPRModel where
  alpha : List Char
  sequence : List Char
  p : Nat
  x : Nat
  n_p : Nat
  PTPs : List (List (List ℚ))
  ngrams : List (List (List Char))
  obs : List Nat
  poss : List Nat
  si : List ℚ
  deriving DecidableEq

/-- The result of `BuildPTPs`' main loop: the PTP matrices built, the
observed counts and sparsity ratios actually assigned into the table
(one pair per evaluated length, including a stop-triggering length), and
the final loop index after `i += (sparsTities[2][i] >= t_np)`. -/
structure LoopOut where
  PTPs : List (List (List ℚ))
  obsL : List Nat
  siL : List ℚ
  fin : Nat
  deriving DecidableEq

/-- Embedding of `BuildPTPs`' loop over `i in range(maxn_p)` with the
early `break` once the sparsity index drops below `t_np`: at index `i`
the observed count is the number of distinct last-element-stripped found
patterns, the ratio is observed over `n_s**(i+1)`, and on passing the
threshold the PTP for this length is built from the previous found
patterns. -/
def buildLoop (alpha seq : List Char) (p x : Nat) (t : ℚ)
    (ngramS : List (List (List Char))) : Nat → Nat → List (List Char) → LoopOut
  | 0, i, _ => ⟨[], [], [], i⟩
  | rem + 1, i, fnd =>
    let obs_i := (npUniquePats (fnd.map List.dropLast)).length
    let si_i := (obs_i : ℚ) / ((alpha.length ^ (i + 1) : Nat) : ℚ)
    if si_i < t then ⟨[], [obs_i], [si_i], i⟩
    else
      let pr := BuildPTP alpha seq p x (ngramS.getD i []) (some fnd)
      let rest := buildLoop alpha seq p x t ngramS rem (i + 1) pr.2
      ⟨pr.1 :: rest.PTPs, obs_i :: rest.obsL, si_i :: rest.siL, rest.fin⟩

/-- Embedding of `BuildPTPs` followed by `__SetPTP__`: the initial found
patterns are the distinct symbols of the sequence, the loop runs up to
`maxn_p`, and the retained count `n_p` truncates the ngram lists and the
three sparsity-table columns (`[col[:i] for col in sparsTities]`). -/
def BuildPTPs (alpha seq : List Char) (p x : Nat) (maxn_p : Nat) (t : ℚ) : SPRModel :=
  let ngramS := MakenGramsFull alpha (maxn_p : Int)
  let fnd0 := npUniquePats (seq.map (fun c => [c]))
  let lp := buildLoop alpha seq p x t ngramS maxn_p 0 fnd0
  let possFull := (List.range maxn_p).map (fun i => alpha.length ^ (i + 1))
  let obsFull := lp.obsL ++ List.replicate (maxn_p - lp.obsL.length) 0
  let siFull := lp.siL ++ List.replicate (maxn_p - lp.siL.length) (0 : ℚ)
  { alpha := alpha, sequence := seq, p := p, x := x,
    n_p := lp.fin, PTPs := lp.PTPs, ngrams := ngramS.take lp.fin,
    obs := obsFull.take lp.fin, poss := possFull.take lp.fin, si := siFull.take lp.fin }

/-! ## `Predict` (SPR.py lines 291-331) -/

/-- The error outcomes of `Predict` and `Simulate`, one constructor per
distinct Python exception site: `lookupFail` for `list.index` raising
`ValueError`, `divByZero` for `sum(i)/w` with `w == 0`, `maxOfEmpty` for
`max([])` raising `ValueError`, and `indexOut` for an out-of-range
subscript such as `rnds[0]` on an empty array. -/
inductive SPRErr where
  | lookupFail
  | divByZero
  | maxOfEmpty
  | indexOut
  deriving DecidableEq

instance {α β : Type} [DecidableEq α] [DecidableEq β] : DecidableEq (Except α β) :=
  fun a b =>
    match a, b with
    | .ok v, .ok w =>
      if h : v = w then isTrue (by rw [h]) else isFalse (by simp [h])
    | .error e, .error f =>
      if h : e = f then isTrue (by rw [h]) else isFalse (by simp [h])
    | .ok _, .error _ => isFalse (by simp)
    | .error _, .ok _ => isFalse (by simp)

/-- Embedding of `Predict`'s gathering loop over `i in range(w)` (the
range bound is the value of `w` before any decrement): scale `i` looks
up the last `i+1` context symbols in its ngram list, collects that row
of the relative-frequency columns, and counts one decrement if the
row's total is zero.  Processing of scales `0..k-1`, in order. -/
def predictLoop (M : SPRModel) (ps : List Char) : Nat → Except SPRErr (List (List ℚ) × Nat)
  | 0 => .ok ([], 0)
  | k + 1 => do
    let (rows, decs) ← predictLoop M ps k
    let seqEnd := pyLastSlice ps (k + 1)
    match (M.ngrams.getD k []).findIdx? (fun g => g = seqEnd) with
    | none => .error .lookupFail
    | some nxtRow =>
      let ptp := M.PTPs.getD k []
      let row := (ptp.drop (M.alpha.length + 1)).map (fun col => col.getD nxtRow 0)
      let dec : Nat := if (ptp.getD M.alpha.length []).getD nxtRow 0 = 0 then 1 else 0
      .ok (rows ++ [row], decs + dec)

/-- Embedding of `Predict`: the context defaults to the last `n_p`
symbols of the sequence, rows are gathered from every scale, averaged by
the adjusted weight `w` (raising at `sum(i)/w` when `w` reached zero),
and the arg-max symbol is returned with the probability vector
(`max([])` raising when no rows were gathered). -/
def Predict (M : SPRModel) (predStart : Option (List Char)) :
    Except SPRErr (Char × List ℚ) := do
  let ps := match predStart with
    | none => pyLastSlice M.sequence M.n_p
    | some l => l
  let w0 := match predStart with
    | none => M.n_p
    | some l => min l.length M.n_p
  let (rows, decs) ← predictLoop M ps w0
  let w := w0 - decs
  let cols := pyZip rows
  if cols.isEmpty then .error .maxOfEmpty
  else if w = 0 then .error .divByZero
  else
    let alphaProbs := cols.map (fun col => col.sum / (w : ℚ))
    match alphaProbs.max? with
    | none => .error .maxOfEmpty
    | some mx =>
      let idx := alphaProbs.findIdx (fun q => q = mx)
      .ok (M.alpha.getD idx default, alphaProbs)

/-! ## `Simulate` (SPR.py lines 249-289) -/

/-- Embedding of `np.cumsum` on a list of rationals. -/
def cumsum (l : List ℚ) : List ℚ :=
  (l.scanl (· + ·) 0).drop 1

/-- Embedding of the one-symbol simulator lambda: the first alphabet
symbol whose cumulative probability is at least `rnd`; an empty
selection reproduces the `[...][0]` `IndexError`. -/
def simOne (alpha : List Char) (rnd : ℚ) (prbs : List ℚ) : Except SPRErr Char :=
  match (((List.range alpha.length).zip prbs).filter (fun ip => rnd ≤ ip.2)).head? with
  | none => .error .indexOut
  | some ip => .ok (alpha.getD ip.1 default)

/-- Embedding of `Simulate`'s generation loop (`for i in range(1,nstar)`):
each new symbol is sampled from the prediction for the trailing
`min(i, n_p)` symbols generated so far.  The per-subsequence memo cache
of the source is elided: `Predict` is pure, so memoization does not
change any result. -/
def simLoop (M : SPRModel) (rnds : List ℚ) :
    Nat → Nat → List Char → Except SPRErr (List Char)
  | 0, _, Sstar => .ok Sstar
  | rem + 1, i, Sstar => do
    let subSeq := pyLastSlice Sstar (min i M.n_p)
    let pr ← Predict M (some subSeq)
    let c ← simOne M.alpha (rnds.getD i 0) (cumsum pr.2)
    simLoop M rnds rem (i + 1) (Sstar ++ [c])

/-- Embedding of `Simulate`: the random draws `rnds` stand for the
pre-drawn `np.random.rand(nstar)` array (so a faithful call has
`rnds.length = nstar`).  The first symbol comes from the no-context
prediction and `rnds[0]` — which, on `nstar = 0`, subscripts an empty
array and raises `IndexError`. -/
def Simulate (M : SPRModel) (rnds : List ℚ) (nstar : Nat) : Except SPRErr (List Char) := do
  let pr ← Predict M none
  match rnds.head? with
  | none => .error .indexOut
  | some r0 => do
    let s0 ← simOne M.alpha r0 (cumsum pr.2)
    simLoop M rnds (nstar - 1) 1 [s0]

/-! ## `Distance` (SPR.py lines 197-247) -/

/-- Materialization of a numpy block of shape `rows × cols` from a
nested list, reading absent entries as `0`: this is at once the
zero-padding `tmp[:mine.shape[0], :mine.shape[1]] = mine`, the
`np.zeros` substitute for a missing PTP, and the identity on a block
already of full shape. -/
def padTo (rows cols : Nat) (m : List (List ℚ)) : List (List ℚ) :=
  (List.range rows).map (fun r => (List.range cols).map (fun c => (m.getD r []).getD c 0))

/-- Embedding of `Distance`: over scales up to the larger `n_p`, both
models' relative-frequency blocks are brought to shape
`Ns × Ns**(scale+1)` and the sum of absolute elementwise differences is
accumulated. -/
def Distance (a b : SPRModel) : ℚ :=
  let Ns := max a.alpha.length b.alpha.length
  ((List.range (max a.n_p b.n_p)).map (fun k =>
    let mine := padTo Ns (Ns ^ (k + 1)) ((a.PTPs.getD k []).drop (a.alpha.length + 1))
    let his := padTo Ns (Ns ^ (k + 1)) ((b.PTPs.getD k []).drop (b.alpha.length + 1))
    (List.zipWith (fun r1 r2 => (List.zipWith (fun q1 q2 => |q1 - q2|) r1 r2).sum)
      his mine).sum)).sum

/-- The strict symbol order induced by the alphabet's declared order:
earlier position in `alpha` means smaller.  Used to state the spec's
"lexicographic order induced by the alphabet's declared order". -/
def declLt (alpha : List Char) (c d : Char) : Prop :=
  alpha.indexOf c < alpha.indexOf d

instance (alpha : List Char) : DecidableRel (declLt alpha) :=
  fun _ _ => Nat.decLt _ _

/-- The `q`-th pattern of length `L` over `alpha` in lexicographic
order: the base-`S` digits of `q`, most significant first, read through
`alpha`. -/
def lexRow (alpha : List Char) (L q : Nat) : List Char :=
  (List.range L).map (fun j =>
    alpha.getD ((q / alpha.length ^ (L - 1 - j)) % alpha.length) default)

/-- The reference enumeration of all patterns of length `L` over `alpha`
in lexicographic order: pattern `q` spells out the base-`S` digits of
`q`, most significant first, through `alpha`. -/
def lexEnum (alpha : List Char) (L : Nat) : List (List Char) :=
  (List.range (alpha.length ^ L)).map (lexRow alpha L)

/-- Row `r`'s total entry of a PTP matrix with `S` alphabet symbols. -/
def totalAt (S : Nat) (PTP : List (List ℚ)) (r : Nat) : ℚ :=
  (PTP.getD S []).getD r 0

/-- The sum of row `r`'s `S` per-symbol transition counts. -/
def countsSumAt (S : Nat) (PTP : List (List ℚ)) (r : Nat) : ℚ :=
  ((PTP.take S).map (fun row => row.getD r 0)).sum

/-- The sum of row `r`'s `S` relative-frequency entries. -/
def relSumAt (S : Nat) (PTP : List (List ℚ)) (r : Nat) : ℚ :=
  ((PTP.drop (S + 1)).map (fun row => row.getD r 0)).sum

/-- A tiny concrete model whose single scale-1 PTP matrix is all zero:
every context row has a zero total, so `Predict`'s adjusted weight
reaches 0. -/
def degenModel : SPRModel :=
  { alpha := ['a', 'b'], sequence := ['a'], p := 97, x := 31, n_p := 1,
    PTPs := [[[0, 0], [0, 0], [0, 0], [0, 0], [0, 0]]],
    ngrams := [[['a'], ['b']]], obs := [1], poss := [2], si := [1/2] }

/-- A tiny concrete model that deterministically alternates `a` and
`b`: its scale-1 PTP has each symbol followed by the other with
relative frequency 1, so every `Predict` call succeeds. -/
def flipModel : SPRModel :=
  { alpha := ['a', 'b'], sequence := ['a', 'b'], p := 97, x := 31, n_p := 1,
    PTPs := [[[0, 1], [1, 0], [1, 1], [0, 1], [1, 0]]],
    ngrams := [[['a'], ['b']]], obs := [2], poss := [2], si := [1] }

/-- The stopping-rule invariant of `buildLoop`, relative to a start
index `i` and a remaining iteration budget `rem`: every ratio before the
final index passed the threshold, and either all `rem` lengths were
evaluated and passed, or the loop stopped early with exactly one extra
evaluated (and failing) ratio. -/
def LoopSpec (t : ℚ) (rem i : Nat) (lp : LoopOut) : Prop :=
  i ≤ lp.fin ∧
    lp.PTPs.length = lp.fin - i ∧
    lp.obsL.length = lp.siL.length ∧
    (∀ k, k < lp.fin - i → t ≤ lp.siL.getD k 0) ∧
    ((lp.fin = i + rem ∧ lp.siL.length = rem) ∨
      (lp.fin < i + rem ∧ lp.siL.length = lp.fin - i + 1 ∧
        lp.siL.getD (lp.fin - i) 0 < t))

/-! # Theorems -/

theorem exists_of_mem_zipWith {α β γ : Type} {f : α → β → γ} {l1 : List α} {l2 : List β}
    {c : γ} (h : c ∈ List.zipWith f l1 l2) : ∃ a b, a ∈ l1 ∧ b ∈ l2 ∧ c = f a b := by
  induction l1 generalizing l2 with
  | nil => simp at h
  | cons a l1 ih =>
    cases l2 with
    | nil => simp at h
    | cons b l2 =>
      rw [List.zipWith_cons_cons] at h
      rcases List.mem_cons.mp h with h | h
      · exact ⟨a, b, List.mem_cons_self .., List.mem_cons_self .., h⟩
      · obtain ⟨a', b', ha, hb, hc⟩ := ih h
        exact ⟨a', b', List.mem_cons_of_mem _ ha, List.mem_cons_of_mem _ hb, hc⟩

theorem fillRow_length (row : List ℚ) (i : Nat) (u : List (Char × Nat)) (alph : Char) :
    (fillRow row i u alph).length = row.length := by
  unfold fillRow
  split
  · rfl
  · exact List.length_set ..

theorem fillRow_mem (row : List ℚ) (i : Nat) (u : List (Char × Nat)) (alph : Char)
    {q : ℚ} (h : q ∈ fillRow row i u alph) : q ∈ row ∨ ∃ m : Nat, q = (m : ℚ) := by
  unfold fillRow at h
  split at h
  · exact Or.inl h
  · rcases List.mem_or_eq_of_mem_set h with h | h
    · exact Or.inl h
    · exact Or.inr ⟨_, h⟩

theorem buildFold_invariant (alpha seq : List Char) (p x n_p n : Nat)
    (pairs : List (Nat × List Char)) (st : List (List ℚ) × List (List Char))
    (h1 : st.1.length = alpha.length)
    (h2 : ∀ row ∈ st.1, row.length = n)
    (h3 : ∀ row ∈ st.1, ∀ q ∈ row, ∃ m : Nat, q = (m : ℚ)) :
    (pairs.foldl (buildStep alpha seq p x n_p) st).1.length = alpha.length ∧
      (∀ row ∈ (pairs.foldl (buildStep alpha seq p x n_p) st).1, row.length = n) ∧
      (∀ row ∈ (pairs.foldl (buildStep alpha seq p x n_p) st).1,
        ∀ q ∈ row, ∃ m : Nat, q = (m : ℚ)) := by
  induction pairs generalizing st with
  | nil => exact ⟨h1, h2, h3⟩
  | cons ig pairs ih =>
    rw [List.foldl_cons]
    refine ih _ ?_ ?_ ?_
    all_goals
      simp only [buildStep]
      split
    · exact h1
    · rw [List.length_zipWith, h1, min_self]
    · exact h2
    · intro row hrow
      obtain ⟨a, b, _, hb, hrow⟩ := exists_of_mem_zipWith hrow
      rw [hrow, fillRow_length]
      exact h2 _ hb
    · exact h3
    · intro row hrow q hq
      obtain ⟨a, b, _, hb, hrow⟩ := exists_of_mem_zipWith hrow
      rw [hrow] at hq
      rcases fillRow_mem _ _ _ _ hq with h | h
      · exact h3 _ hb _ h
      · exact h

theorem foldl_min_const {α : Type} {n : Nat} :
    ∀ (cs : List (List α)), (∀ row ∈ cs, row.length = n) →
      cs.foldl (fun m r => min m r.length) n = n
  | [], _ => rfl
  | r :: cs, h => by
    rw [List.foldl_cons, h r (List.mem_cons_self ..), min_self]
    exact foldl_min_const cs (fun row hrow => h row (List.mem_cons_of_mem _ hrow))

theorem minLen_of_all_eq {α : Type} {n : Nat} {counts : List (List α)}
    (hne : counts ≠ []) (hall : ∀ row ∈ counts, row.length = n) :
    minLen counts = n := by
  match counts, hne with
  | c :: cs, _ =>
    have hc : c.length = n := hall c (List.mem_cons_self ..)
    show List.foldl (fun m r => min m r.length) c.length cs = n
    rw [hc]
    exact foldl_min_const cs (fun row hrow => hall row (List.mem_cons_of_mem _ hrow))

theorem buildTots_length {n : Nat} {counts : List (List ℚ)}
    (hall : ∀ row ∈ counts, row.length = n) :
    (buildTots counts).length = if counts = [] then 0 else n := by
  unfold buildTots pyZip
  rw [List.length_map, List.length_map, List.length_range]
  split
  · subst counts
    rfl
  · exact minLen_of_all_eq (by assumption) hall

theorem buildTots_getD {n : Nat} {counts : List (List ℚ)} {r : Nat}
    (hall : ∀ row ∈ counts, row.length = n) :
    (buildTots counts).getD r 0 = (counts.map (fun row => row.getD r 0)).sum := by
  by_cases hc : counts = []
  · subst counts
    rfl
  by_cases hr : r < n
  · have hlen : (buildTots counts).length = n := by
      rw [buildTots_length hall, if_neg hc]
    have hmin : minLen counts = n := minLen_of_all_eq hc hall
    rw [List.getD_eq_getElem _ _ (by rw [hlen]; exact hr)]
    unfold buildTots pyZip
    rw [List.getElem_map, List.getElem_map, List.getElem_range]
    rfl
  · have h0 : (buildTots counts).getD r 0 = 0 := by
      refine List.getD_eq_default _ _ ?_
      rw [buildTots_length hall, if_neg hc]
      omega
    rw [h0]
    refine (List.sum_eq_zero (fun v hv => ?_)).symm
    obtain ⟨row, hrow, hveq⟩ := List.mem_map.mp hv
    rw [← hveq]
    refine List.getD_eq_default _ _ ?_
    rw [hall row hrow]
    omega

theorem sum_map_div (l : List ℚ) (t : ℚ) :
    (l.map (fun q => q / t)).sum = l.sum / t := by
  induction l with
  | nil => simp
  | cons a l ih => rw [List.map_cons, List.sum_cons, List.sum_cons, ih, add_div]

theorem buildFold_shape (alpha seq : List Char) (p x : Nat)
    (ngrams : List (List Char)) (red : Option (List (List Char))) :
    (buildFold alpha seq p x ngrams red).1.length = alpha.length ∧
      (∀ row ∈ (buildFold alpha seq p x ngrams red).1, row.length = ngrams.length) ∧
      (∀ row ∈ (buildFold alpha seq p x ngrams red).1, ∀ q ∈ row, ∃ m : Nat, q = (m : ℚ)) := by
  unfold buildFold
  refine buildFold_invariant _ _ _ _ _ _ _ _ ?_ ?_ ?_
  · exact List.length_replicate ..
  · intro row hrow
    rw [(List.mem_replicate.mp hrow).2]
    exact List.length_replicate ..
  · intro row hrow q hq
    rw [(List.mem_replicate.mp hrow).2] at hq
    rw [(List.mem_replicate.mp hq).2]
    exact ⟨0, by norm_num⟩

theorem buildLoop_PTPs_provenance (alpha seq : List Char) (p x : Nat) (t : ℚ)
    (ngramS : List (List (List Char))) :
    ∀ (rem i : Nat) (fnd : List (List Char)),
      ∀ M ∈ (buildLoop alpha seq p x t ngramS rem i fnd).PTPs,
        ∃ ng fnd', M = (BuildPTP alpha seq p x ng (some fnd')).1
  | 0, i, fnd => by
    intro M hM
    simp [buildLoop] at hM
  | rem + 1, i, fnd => by
    intro M hM
    simp only [buildLoop] at hM
    split at hM
    · simp at hM
    · rcases List.mem_cons.mp hM with h | h
      · exact ⟨ngramS.getD i [], fnd, h⟩
      · exact buildLoop_PTPs_provenance alpha seq p x t ngramS rem (i + 1) _ M h

/-- C2: every row of every PTP matrix produced by `BuildPTP` has its `S`
per-symbol counts summing to the row's total, relative frequencies
summing to 1 exactly when the total is positive and identically 0 when
the total is 0 (the zero-total policy, never a division fault); and
every matrix retained by `BuildPTPs` is such a `BuildPTP` output. -/
theorem buildPTP_row_invariant (alpha seq : List Char) (p x : Nat)
    (ngrams : List (List Char)) (red : Option (List (List Char)))
    (m : Nat) (t : ℚ) (r : Nat) :
    countsSumAt alpha.length (BuildPTP alpha seq p x ngrams red).1 r =
        totalAt alpha.length (BuildPTP alpha seq p x ngrams red).1 r ∧
      0 ≤ totalAt alpha.length (BuildPTP alpha seq p x ngrams red).1 r ∧
      (0 < totalAt alpha.length (BuildPTP alpha seq p x ngrams red).1 r →
        relSumAt alpha.length (BuildPTP alpha seq p x ngrams red).1 r = 1) ∧
      (totalAt alpha.length (BuildPTP alpha seq p x ngrams red).1 r = 0 →
        ∀ row ∈ (BuildPTP alpha seq p x ngrams red).1.drop (alpha.length + 1),
          row.getD r 0 = 0) ∧
      (∀ M ∈ (BuildPTPs alpha seq p x m t).PTPs,
        ∃ ng fnd, M = (BuildPTP alpha seq p x ng (some fnd)).1) := by
  obtain ⟨hlen, hrows, hnat⟩ := buildFold_shape alpha seq p x ngrams red
  set counts := (buildFold alpha seq p x ngrams red).1 with hcounts
  set tots := buildTots counts with htots
  set rel := buildRel counts tots with hrel
  have hPTP : (BuildPTP alpha seq p x ngrams red).1 = (counts ++ [tots]) ++ rel := rfl
  have htake : ((counts ++ [tots]) ++ rel).take alpha.length = counts := by
    rw [List.append_assoc, ← hlen]
    exact List.take_left ..
  have hget : ((counts ++ [tots]) ++ rel).getD alpha.length [] = tots := by
    rw [List.append_assoc]
    rw [List.getD_eq_getElem _ _ (by
      rw [List.length_append, List.length_append, hlen, List.length_cons]
      omega)]
    rw [List.getElem_append_right (by omega)]
    simp [hlen]
  have hdrop : ((counts ++ [tots]) ++ rel).drop (alpha.length + 1) = rel := by
    have hl : alpha.length + 1 = (counts ++ [tots]).length := by
      rw [List.length_append, hlen, List.length_cons]
      simp
    rw [hl]
    exact List.drop_left ..
  have hA : countsSumAt alpha.length (BuildPTP alpha seq p x ngrams red).1 r =
      totalAt alpha.length (BuildPTP alpha seq p x ngrams red).1 r := by
    unfold countsSumAt totalAt
    rw [hPTP, htake, hget, buildTots_getD hrows]
  refine ⟨hA, ?_, ?_, ?_, ?_⟩
  · unfold totalAt
    rw [hPTP, hget, buildTots_getD hrows]
    refine List.sum_nonneg (fun v hv => ?_)
    obtain ⟨row, hrow, hveq⟩ := List.mem_map.mp hv
    rw [← hveq]
    by_cases hrl : r < row.length
    · have hmem : row.getD r 0 ∈ row := by
        rw [List.getD_eq_getElem _ _ hrl]
        exact List.getElem_mem _
      obtain ⟨mm, hm⟩ := hnat row hrow _ hmem
      rw [hm]
      exact_mod_cast Nat.zero_le mm
    · rw [List.getD_eq_default _ _ (by omega)]
  · intro hpos
    unfold totalAt at hpos
    rw [hPTP, hget] at hpos
    unfold relSumAt
    rw [hPTP, hdrop]
    by_cases hc : counts = []
    · rw [htots, hc] at hpos
      simp [buildTots, pyZip, minLen] at hpos
    by_cases hr : r < ngrams.length
    case neg =>
      exfalso
      rw [buildTots_getD hrows] at hpos
      have hz : (counts.map (fun row => row.getD r 0)).sum = 0 := by
        refine List.sum_eq_zero (fun v hv => ?_)
        obtain ⟨row, hrow, hveq⟩ := List.mem_map.mp hv
        rw [← hveq]
        refine List.getD_eq_default _ _ ?_
        rw [hrows row hrow]
        omega
      rw [hz] at hpos
      exact lt_irrefl _ hpos
    have htlen : tots.length = ngrams.length := by
      rw [htots, buildTots_length hrows, if_neg hc]
    have hTne : tots.getD r 0 ≠ 0 := ne_of_gt hpos
    have hstep : ∀ col ∈ counts,
        (List.zipWith (fun i t => if t ≠ 0 then i / t else (0 : ℚ)) col tots).getD r 0 =
          col.getD r 0 / tots.getD r 0 := by
      intro col hcol
      have hcl : col.length = ngrams.length := hrows col hcol
      have hzl : r < (List.zipWith (fun i t => if t ≠ 0 then i / t else (0 : ℚ)) col tots).length := by
        rw [List.length_zipWith, hcl, htlen]
        simp [hr]
      rw [List.getD_eq_getElem _ _ hzl, List.getElem_zipWith,
        List.getD_eq_getElem _ _ (by omega : r < col.length),
        List.getD_eq_getElem _ _ (by omega : r < tots.length)]
      rw [List.getD_eq_getElem _ _ (by omega : r < tots.length)] at hTne
      rw [if_pos hTne]
    calc ((rel).map (fun row => row.getD r 0)).sum
        = (counts.map (fun col => col.getD r 0 / tots.getD r 0)).sum := by
          rw [hrel]
          unfold buildRel
          rw [List.map_map]
          exact congrArg List.sum (List.map_congr_left (fun col hcol => hstep col hcol))
      _ = ((counts.map (fun col => col.getD r 0)).map (fun q => q / tots.getD r 0)).sum := by
          rw [List.map_map]
          rfl
      _ = (counts.map (fun col => col.getD r 0)).sum / tots.getD r 0 := sum_map_div ..
      _ = tots.getD r 0 / tots.getD r 0 := by rw [← buildTots_getD hrows]
      _ = 1 := div_self hTne
  · intro h0 row hrow
    unfold totalAt at h0
    rw [hPTP, hget] at h0
    rw [hPTP, hdrop] at hrow
    rw [hrel] at hrow
    unfold buildRel at hrow
    obtain ⟨col, hcol, hroweq⟩ := List.mem_map.mp hrow
    rw [← hroweq]
    by_cases hzr : r < (List.zipWith (fun i t => if t ≠ 0 then i / t else (0 : ℚ)) col tots).length
    · rw [List.getD_eq_getElem _ _ hzr, List.getElem_zipWith]
      have hrt : r < tots.length := by
        rw [List.length_zipWith] at hzr
        omega
      have : tots[r] = 0 := by
        rw [← List.getD_eq_getElem _ (0 : ℚ) hrt]
        exact h0
      simp [this]
    · rw [List.getD_eq_default _ _ (by omega)]
  · intro M hM
    exact buildLoop_PTPs_provenance alpha seq p x t _ m 0 _ M hM

/-- C1 (amended): for every nonempty pattern, `HashSearch` returns
exactly the ordered list of all start indices `i` with
`i + L <= N` at which the window of `Sequence` equals the pattern; the
character-by-character verification admits no hash collision and the
scan misses no match. -/
theorem hashSearch_exact_matches (seq pat : List Char) (p x : Nat)
    (hL : 1 ≤ pat.length) :
    (HashSearch seq pat p x).Sorted (· < ·) ∧
      ∀ i, i ∈ HashSearch seq pat p x ↔
        i + pat.length ≤ seq.length ∧ window seq i pat.length = pat := by
  unfold HashSearch
  by_cases hsl : seq.length < pat.length
  · rw [if_pos (Or.inr hsl)]
    refine ⟨List.sorted_nil, fun i => ?_⟩
    simp only [List.not_mem_nil, false_iff, not_and]
    intro hle
    omega
  · have hne : ¬ (pat.length = 0 ∨ seq.length < pat.length) := by
      push_neg
      exact ⟨by omega, by omega⟩
    rw [if_neg hne]
    constructor
    · exact List.Pairwise.sublist (List.filter_sublist _) (List.pairwise_lt_range _)
    · intro i
      rw [List.mem_filter, List.mem_range]
      constructor
      · rintro ⟨hir, hp⟩
        have hp' := of_decide_eq_true hp
        exact ⟨by omega, hp'.2⟩
      · rintro ⟨hle, hwin⟩
        refine ⟨by omega, decide_eq_true ?_⟩
        exact ⟨by rw [hwin], hwin⟩

/-- Witness for C1's theorem at a concrete pattern and sequence. -/
theorem hashSearch_exact_matches_witness :
    1 ≤ (['a', 'b'] : List Char).length ∧
      ((HashSearch ['a', 'b', 'a', 'b', 'a'] ['a', 'b'] 97 31).Sorted (· < ·) ∧
        ∀ i, i ∈ HashSearch ['a', 'b', 'a', 'b', 'a'] ['a', 'b'] 97 31 ↔
          i + (['a', 'b'] : List Char).length ≤ (['a', 'b', 'a', 'b', 'a'] : List Char).length ∧
            window ['a', 'b', 'a', 'b', 'a'] i (['a', 'b'] : List Char).length = ['a', 'b']) :=
  ⟨by decide, hashSearch_exact_matches _ _ _ _ (by decide)⟩

/-- Counterexample to C1 as stated: for the empty pattern (length 0) the
search returns no index at all, although index 0 satisfies
`0 + 0 <= N` and the empty window matches the empty pattern. -/
theorem hashSearch_empty_pattern_cex :
    ¬ (∀ i, i ∈ HashSearch ['a'] [] 97 31 ↔
        i + ([] : List Char).length ≤ (['a'] : List Char).length ∧
          window ['a'] i ([] : List Char).length = []) := by
  intro h
  have h0 := (h 0).mpr (by decide)
  exact absurd h0 (by decide)

/-- C9 (amended): for `maxLength <= 0` the single-length mode returns an
empty ngram list, while the all-lengths mode returns a two-element
output: the alphabet (as the 1-gram list) followed by an empty list —
not an empty output. -/
theorem makenGrams_nonpositive (alpha : List Char) (m : Int) (hm : m ≤ 0) :
    MakenGramsOnly alpha m = [] ∧
      MakenGramsFull alpha m = [alpha.map (fun c => [c]), []] := by
  have h0 : m.toNat = 0 := Int.toNat_eq_zero.mpr hm
  unfold MakenGramsOnly MakenGramsFull
  rw [h0]
  exact ⟨rfl, rfl⟩

/-- Witness for C9's amended theorem at `maxLength = -3`. -/
theorem makenGrams_nonpositive_witness :
    (-3 : Int) ≤ 0 ∧ (MakenGramsOnly ['a', 'b'] (-3) = [] ∧
      MakenGramsFull ['a', 'b'] (-3) = [(['a', 'b'] : List Char).map (fun c => [c]), []]) :=
  ⟨by decide, makenGrams_nonpositive ['a', 'b'] (-3) (by decide)⟩

/-- Counterexample to C9 as stated: at `maxLength = 0` the all-lengths
mode does not return empty output — it returns the alphabet list plus an
empty list. -/
theorem makenGrams_nonpositive_cex :
    MakenGramsFull ['a', 'b'] 0 ≠ [] ∧
      MakenGramsFull ['a', 'b'] 0 = [[['a'], ['b']], []] := by decide

theorem buildLoop_spec (alpha seq : List Char) (p x : Nat) (t : ℚ)
    (ngramS : List (List (List Char))) :
    ∀ (rem i : Nat) (fnd : List (List Char)),
      LoopSpec t rem i (buildLoop alpha seq p x t ngramS rem i fnd)
  | 0, i, fnd => by
    show LoopSpec t 0 i ⟨[], [], [], i⟩
    unfold LoopSpec
    dsimp only
    refine ⟨le_refl i, by simp, rfl, ?_, Or.inl ⟨by omega, rfl⟩⟩
    intro k hk
    omega
  | rem + 1, i, fnd => by
    simp only [buildLoop]
    split
    case isTrue h =>
      unfold LoopSpec
      dsimp only
      refine ⟨le_refl i, by simp, rfl, ?_, Or.inr ⟨by omega, by simp, ?_⟩⟩
      · intro k hk
        omega
      · simpa using h
    case isFalse h =>
      obtain ⟨ih1, ih2, ih3, ih4, ih5⟩ :=
        buildLoop_spec alpha seq p x t ngramS rem (i + 1)
          (BuildPTP alpha seq p x (ngramS.getD i []) (some fnd)).2
      set rest := buildLoop alpha seq p x t ngramS rem (i + 1)
        (BuildPTP alpha seq p x (ngramS.getD i []) (some fnd)).2 with hrest
      have hts : t ≤ ((npUniquePats (fnd.map List.dropLast)).length : ℚ) /
          ((alpha.length ^ (i + 1) : Nat) : ℚ) := le_of_not_lt h
      unfold LoopSpec
      dsimp only
      refine ⟨by omega, ?_, ?_, ?_, ?_⟩
      · simp only [List.length_cons]
        omega
      · simp only [List.length_cons]
        omega
      · intro k hk
        match k with
        | 0 => simpa using hts
        | k + 1 =>
          rw [List.getD_cons_succ]
          exact ih4 k (by omega)
      · rcases ih5 with ⟨hfin, hlen⟩ | ⟨hfin, hlen, hlast⟩
        · refine Or.inl ⟨by omega, ?_⟩
          simp only [List.length_cons, hlen]
        · refine Or.inr ⟨by omega, ?_, ?_⟩
          · simp only [List.length_cons, hlen]
            omega
          · have hk : rest.fin - i = (rest.fin - (i + 1)) + 1 := by omega
            rw [hk, List.getD_cons_succ]
            exact hlast

/-- C3: for the first length at which the sparsity ratio drops strictly
below the threshold the build stops without constructing that length's
PTP matrix, `n_p` is the number of lengths strictly before the stop
(`n_p = maxLength` when every ratio passes), and in particular a run
whose scale-1 and scale-2 ratios pass while the scale-3 ratio fails
retains exactly 2 matrices. -/
theorem buildPTPs_stopping_rule (alpha seq : List Char) (p x : Nat)
    (m : Nat) (t : ℚ) (hm : 1 ≤ m) (lp : LoopOut)
    (hlp : lp = buildLoop alpha seq p x t (MakenGramsFull alpha (m : Int)) m 0
      (npUniquePats (seq.map (fun c => [c])))) :
    (BuildPTPs alpha seq p x m t).n_p = lp.fin ∧
      (BuildPTPs alpha seq p x m t).PTPs.length = (BuildPTPs alpha seq p x m t).n_p ∧
      (BuildPTPs alpha seq p x m t).n_p ≤ m ∧
      (∀ k, k < (BuildPTPs alpha seq p x m t).n_p → t ≤ lp.siL.getD k 0) ∧
      ((BuildPTPs alpha seq p x m t).n_p = m ∨
        ((BuildPTPs alpha seq p x m t).n_p < m ∧
          lp.siL.getD (BuildPTPs alpha seq p x m t).n_p 0 < t)) ∧
      (3 ≤ m → t ≤ lp.siL.getD 0 0 → t ≤ lp.siL.getD 1 0 →
        lp.siL.getD 2 0 < t → (BuildPTPs alpha seq p x m t).n_p = 2) := by
  subst hlp
  obtain ⟨h1, h2, h3, h4, h5⟩ := buildLoop_spec alpha seq p x t
    (MakenGramsFull alpha (m : Int)) m 0 (npUniquePats (seq.map (fun c => [c])))
  set lp := buildLoop alpha seq p x t (MakenGramsFull alpha (m : Int)) m 0
    (npUniquePats (seq.map (fun c => [c]))) with hlpdef
  have hnp : (BuildPTPs alpha seq p x m t).n_p = lp.fin := rfl
  have hPT : (BuildPTPs alpha seq p x m t).PTPs = lp.PTPs := rfl
  have hfin_le : lp.fin ≤ m := by
    rcases h5 with ⟨hfin, _⟩ | ⟨hfin, _, _⟩ <;> omega
  have hlen2 : lp.PTPs.length = lp.fin := by omega
  refine ⟨hnp, ?_, ?_, ?_, ?_, ?_⟩
  · rw [hnp, hPT, hlen2]
  · omega
  · intro k hk
    rw [hnp] at hk
    exact h4 k (by omega)
  · rw [hnp]
    rcases h5 with ⟨hfin, _⟩ | ⟨hfin, _, hlast⟩
    · exact Or.inl (by omega)
    · refine Or.inr ⟨by omega, ?_⟩
      have : lp.fin - 0 = lp.fin := by omega
      rw [this] at hlast
      exact hlast
  · intro hm3 hs0 hs1 hs2
    rw [hnp]
    rcases h5 with ⟨hfin, _⟩ | ⟨hfin, _, hlast⟩
    · exfalso
      have := h4 2 (by omega)
      exact absurd hs2 (not_lt.mpr this)
    · have hz : lp.fin - 0 = lp.fin := by omega
      rw [hz] at hlast
      have hle2 : lp.fin ≤ 2 := by
        by_contra hgt
        have := h4 2 (by omega)
        exact absurd hs2 (not_lt.mpr this)
      rcases Nat.lt_or_ge lp.fin 2 with hlt | hge
      · exfalso
        rcases Nat.lt_or_ge lp.fin 1 with hlt0 | hge1
        · have hf0 : lp.fin = 0 := by omega
          rw [hf0] at hlast
          exact absurd hs0 (not_le.mpr hlast)
        · have hf1 : lp.fin = 1 := by omega
          rw [hf1] at hlast
          exact absurd hs1 (not_le.mpr hlast)
      · omega

/-- Witness for C3's theorem at a concrete build. -/
theorem buildPTPs_stopping_rule_witness :
    1 ≤ 1 ∧
      ((BuildPTPs ['a'] ['a'] 1 1 1 0).n_p =
          (buildLoop ['a'] ['a'] 1 1 0 (MakenGramsFull ['a'] ((1 : Nat) : Int)) 1 0
            (npUniquePats ((['a'] : List Char).map (fun c => [c])))).fin ∧
        (BuildPTPs ['a'] ['a'] 1 1 1 0).PTPs.length = (BuildPTPs ['a'] ['a'] 1 1 1 0).n_p ∧
        (BuildPTPs ['a'] ['a'] 1 1 1 0).n_p ≤ 1 ∧
        (∀ k, k < (BuildPTPs ['a'] ['a'] 1 1 1 0).n_p →
          (0 : ℚ) ≤ (buildLoop ['a'] ['a'] 1 1 0 (MakenGramsFull ['a'] ((1 : Nat) : Int)) 1 0
            (npUniquePats ((['a'] : List Char).map (fun c => [c])))).siL.getD k 0) ∧
        ((BuildPTPs ['a'] ['a'] 1 1 1 0).n_p = 1 ∨
          ((BuildPTPs ['a'] ['a'] 1 1 1 0).n_p < 1 ∧
            (buildLoop ['a'] ['a'] 1 1 0 (MakenGramsFull ['a'] ((1 : Nat) : Int)) 1 0
              (npUniquePats ((['a'] : List Char).map (fun c => [c])))).siL.getD
                (BuildPTPs ['a'] ['a'] 1 1 1 0).n_p 0 < 0)) ∧
        (3 ≤ 1 →
          (0 : ℚ) ≤ (buildLoop ['a'] ['a'] 1 1 0 (MakenGramsFull ['a'] ((1 : Nat) : Int)) 1 0
            (npUniquePats ((['a'] : List Char).map (fun c => [c])))).siL.getD 0 0 →
          (0 : ℚ) ≤ (buildLoop ['a'] ['a'] 1 1 0 (MakenGramsFull ['a'] ((1 : Nat) : Int)) 1 0
            (npUniquePats ((['a'] : List Char).map (fun c => [c])))).siL.getD 1 0 →
          (buildLoop ['a'] ['a'] 1 1 0 (MakenGramsFull ['a'] ((1 : Nat) : Int)) 1 0
            (npUniquePats ((['a'] : List Char).map (fun c => [c])))).siL.getD 2 0 < 0 →
          (BuildPTPs ['a'] ['a'] 1 1 1 0).n_p = 2)) :=
  ⟨by decide, buildPTPs_stopping_rule ['a'] ['a'] 1 1 1 0 (by decide) _ rfl⟩

/-- C7 (amended): the stored SparsityTable is truncated to exactly the
retained lengths — `n_p` entries per column, the same count as the
retained PTP matrices, excluding the stop-triggering length — although
on an early stop the loop really evaluated `n_p + 1` ratios (the
triggering one is computed but not stored). -/
theorem buildPTPs_sparsity_truncation (alpha seq : List Char) (p x m : Nat) (t : ℚ)
    (hm : 1 ≤ m) (lp : LoopOut)
    (hlp : lp = buildLoop alpha seq p x t (MakenGramsFull alpha (m : Int)) m 0
      (npUniquePats (seq.map (fun c => [c])))) :
    (BuildPTPs alpha seq p x m t).obs.length = (BuildPTPs alpha seq p x m t).n_p ∧
      (BuildPTPs alpha seq p x m t).poss.length = (BuildPTPs alpha seq p x m t).n_p ∧
      (BuildPTPs alpha seq p x m t).si.length = (BuildPTPs alpha seq p x m t).n_p ∧
      (BuildPTPs alpha seq p x m t).PTPs.length = (BuildPTPs alpha seq p x m t).n_p ∧
      ((BuildPTPs alpha seq p x m t).n_p < m → lp.siL.length =
        (BuildPTPs alpha seq p x m t).n_p + 1) := by
  subst hlp
  obtain ⟨h1, h2, h3, h4, h5⟩ := buildLoop_spec alpha seq p x t
    (MakenGramsFull alpha (m : Int)) m 0 (npUniquePats (seq.map (fun c => [c])))
  set lp := buildLoop alpha seq p x t (MakenGramsFull alpha (m : Int)) m 0
    (npUniquePats (seq.map (fun c => [c]))) with hlpdef
  have hnp : (BuildPTPs alpha seq p x m t).n_p = lp.fin := rfl
  have hobs : (BuildPTPs alpha seq p x m t).obs =
      (lp.obsL ++ List.replicate (m - lp.obsL.length) 0).take lp.fin := rfl
  have hposs : (BuildPTPs alpha seq p x m t).poss =
      ((List.range m).map (fun i => alpha.length ^ (i + 1))).take lp.fin := rfl
  have hsi : (BuildPTPs alpha seq p x m t).si =
      (lp.siL ++ List.replicate (m - lp.siL.length) (0 : ℚ)).take lp.fin := rfl
  have hPT : (BuildPTPs alpha seq p x m t).PTPs = lp.PTPs := rfl
  have hsil_le : lp.siL.length ≤ m ∧ lp.fin ≤ m := by
    rcases h5 with ⟨hfin, hlen⟩ | ⟨hfin, hlen, _⟩ <;> constructor <;> omega
  refine ⟨?_, ?_, ?_, ?_, ?_⟩
  · rw [hobs, hnp, List.length_take, List.length_append, List.length_replicate]
    omega
  · rw [hposs, hnp, List.length_take, List.length_map, List.length_range]
    omega
  · rw [hsi, hnp, List.length_take, List.length_append, List.length_replicate]
    omega
  · rw [hPT, hnp]
    omega
  · intro hstop
    rw [hnp] at hstop ⊢
    rcases h5 with ⟨hfin, hlen⟩ | ⟨hfin, hlen, _⟩
    · omega
    · omega

/-- Witness for C7's amended theorem at a concrete build. -/
theorem buildPTPs_sparsity_truncation_witness :
    1 ≤ 1 ∧
      ((BuildPTPs ['a'] ['a'] 1 1 1 0).obs.length = (BuildPTPs ['a'] ['a'] 1 1 1 0).n_p ∧
        (BuildPTPs ['a'] ['a'] 1 1 1 0).poss.length = (BuildPTPs ['a'] ['a'] 1 1 1 0).n_p ∧
        (BuildPTPs ['a'] ['a'] 1 1 1 0).si.length = (BuildPTPs ['a'] ['a'] 1 1 1 0).n_p ∧
        (BuildPTPs ['a'] ['a'] 1 1 1 0).PTPs.length = (BuildPTPs ['a'] ['a'] 1 1 1 0).n_p ∧
        ((BuildPTPs ['a'] ['a'] 1 1 1 0).n_p < 1 →
          (buildLoop ['a'] ['a'] 1 1 0 (MakenGramsFull ['a'] ((1 : Nat) : Int)) 1 0
            (npUniquePats ((['a'] : List Char).map (fun c => [c])))).siL.length =
            (BuildPTPs ['a'] ['a'] 1 1 1 0).n_p + 1)) :=
  ⟨by decide, buildPTPs_sparsity_truncation ['a'] ['a'] 1 1 1 0 (by decide) _ rfl⟩

/-- Counterexample to C7 as stated: a concrete build that stops at
scale 2 (`n_p = 1 < maxLength = 2`, the loop evaluated 2 ratios) stores
sparsity-table columns of length 1 — the evaluated stop-triggering
length is not covered. -/
theorem except_bind_ok {α β : Type} (a : α) (f : α → Except SPRErr β) :
    ((Except.ok a : Except SPRErr α) >>= f) = f a := rfl

theorem foldl_min_pos :
    ∀ (cs : List (List ℚ)) (init : Nat), 0 < init → (∀ row ∈ cs, row ≠ []) →
      0 < cs.foldl (fun m r => min m r.length) init
  | [], _, h, _ => h
  | r :: cs, init, h, hall => by
    rw [List.foldl_cons]
    refine foldl_min_pos cs _ ?_ (fun row hrow => hall row (List.mem_cons_of_mem _ hrow))
    have hr : 0 < r.length := List.length_pos.mpr (hall r (List.mem_cons_self ..))
    omega

theorem minLen_pos {rows : List (List ℚ)} (hne : rows ≠ [])
    (h : ∀ row ∈ rows, row ≠ []) : 0 < minLen rows := by
  match rows, hne with
  | c :: cs, _ =>
    show 0 < List.foldl (fun m r => min m r.length) c.length cs
    refine foldl_min_pos cs c.length ?_ (fun row hrow => h row (List.mem_cons_of_mem _ hrow))
    exact List.length_pos.mpr (h c (List.mem_cons_self ..))

theorem predictLoop_all_zero (M : SPRModel) (ps : List Char) :
    ∀ (k : Nat),
      (∀ i, i < k → ∃ rIdx,
        (M.ngrams.getD i []).findIdx? (fun g => g = pyLastSlice ps (i + 1)) = some rIdx ∧
          ((M.PTPs.getD i []).getD M.alpha.length []).getD rIdx 0 = 0) →
      (∀ i, i < k → M.alpha.length + 1 < (M.PTPs.getD i []).length) →
      ∃ rows, predictLoop M ps k = .ok (rows, k) ∧ rows.length = k ∧
        ∀ row ∈ rows, row ≠ ([] : List ℚ)
  | 0, _, _ => ⟨[], rfl, rfl, by simp⟩
  | k + 1, hlook, hlen => by
    obtain ⟨rows, hok, hrl, hrne⟩ := predictLoop_all_zero M ps k
      (fun i hi => hlook i (by omega)) (fun i hi => hlen i (by omega))
    obtain ⟨rIdx, hfind, hzero⟩ := hlook k (by omega)
    refine ⟨rows ++ [((M.PTPs.getD k []).drop (M.alpha.length + 1)).map
      (fun col => col.getD rIdx 0)], ?_, ?_, ?_⟩
    · simp only [predictLoop, hok, except_bind_ok, hfind, hzero, if_pos]
    · rw [List.length_append, hrl, List.length_singleton]
    · intro row hrow
      rcases List.mem_append.mp hrow with h | h
      · exact hrne row h
      · rw [List.mem_singleton.mp h]
        have hl := hlen k (by omega)
        intro hnil
        have := congrArg List.length hnil
        rw [List.length_map, List.length_drop] at this
        simp only [List.length_nil] at this
        omega

/-- C5: when every retained scale has a zero-total row for the given
context, `Predict` surfaces an explicit, distinguishable error — the
`sum(i)/w` division with adjusted weight `w == 0` — rather than
silently returning NaN probabilities or an arbitrary symbol. -/
theorem predict_zero_support_error (M : SPRModel) (ps : List Char)
    (hw : 1 ≤ min ps.length M.n_p)
    (hlook : ∀ i, i < min ps.length M.n_p → ∃ rIdx,
      (M.ngrams.getD i []).findIdx? (fun g => g = pyLastSlice ps (i + 1)) = some rIdx ∧
        ((M.PTPs.getD i []).getD M.alpha.length []).getD rIdx 0 = 0)
    (hlen : ∀ i, i < min ps.length M.n_p → M.alpha.length + 1 < (M.PTPs.getD i []).length) :
    Predict M (some ps) = .error .divByZero := by
  obtain ⟨rows, hok, hrl, hrne⟩ := predictLoop_all_zero M ps (min ps.length M.n_p) hlook hlen
  have hrows_ne : rows ≠ [] := by
    intro h
    rw [h] at hrl
    simp at hrl
    omega
  have hcols_ne : pyZip rows ≠ [] := by
    unfold pyZip
    intro h
    have := congrArg List.length h
    rw [List.length_map, List.length_range] at this
    have hpos := minLen_pos hrows_ne hrne
    simp at this
    omega
  have hce : (pyZip rows).isEmpty = false := by
    rw [List.isEmpty_eq_false]
    exact hcols_ne
  simp only [Predict, hok, except_bind_ok, hce, Nat.sub_self, if_pos, Bool.false_eq_true,
    if_false, if_true]

/-- Witness for C5's theorem: a concrete model whose only scale has an
all-zero PTP, with context `"a"`. -/
theorem predict_zero_support_error_witness :
    (1 ≤ min (['a'] : List Char).length degenModel.n_p) ∧
      Predict degenModel (some ['a']) = .error .divByZero := by
  refine ⟨by decide, predict_zero_support_error degenModel ['a'] (by decide) ?_ ?_⟩
  · intro i hi
    match i with
    | 0 => exact ⟨0, by decide, by decide⟩
    | i + 1 =>
      exfalso
      simp only [degenModel, List.length_singleton, min_self] at hi
      omega
  · intro i hi
    match i with
    | 0 => decide
    | i + 1 =>
      exfalso
      simp only [degenModel, List.length_singleton, min_self] at hi
      omega

theorem except_bind_error {α β : Type} (e : SPRErr) (f : α → Except SPRErr β) :
    ((Except.error e : Except SPRErr α) >>= f) = Except.error e := rfl

theorem simOne_mem {alpha : List Char} {rnd : ℚ} {prbs : List ℚ} {c : Char}
    (h : simOne alpha rnd prbs = .ok c) : c ∈ alpha := by
  unfold simOne at h
  cases hh : (((List.range alpha.length).zip prbs).filter (fun ip => rnd ≤ ip.2)).head? with
  | none =>
    rw [hh] at h
    exact absurd h (by simp)
  | some ip =>
    rw [hh] at h
    obtain ⟨i, q⟩ := ip
    have hc : alpha.getD i default = c := by
      simpa using h
    have hmem := List.mem_of_mem_head? hh
    have hz := (List.mem_filter.mp hmem).1
    have h1 := (List.of_mem_zip hz).1
    rw [List.mem_range] at h1
    rw [← hc, List.getD_eq_getElem _ _ h1]
    exact List.getElem_mem _

theorem simLoop_ok (M : SPRModel) (rnds : List ℚ) :
    ∀ (rem i : Nat) (acc s : List Char),
      (∀ c ∈ acc, c ∈ M.alpha) →
      simLoop M rnds rem i acc = .ok s →
      s.length = acc.length + rem ∧ ∀ c ∈ s, c ∈ M.alpha
  | 0, i, acc, s, hacc, h => by
    have hs : acc = s := by simpa [simLoop] using h
    subst hs
    exact ⟨by omega, hacc⟩
  | rem + 1, i, acc, s, hacc, h => by
    simp only [simLoop] at h
    cases hp : Predict M (some (pyLastSlice acc (min i M.n_p))) with
    | error e =>
      rw [hp, except_bind_error] at h
      exact absurd h (by simp)
    | ok pr =>
      rw [hp, except_bind_ok] at h
      cases hso : simOne M.alpha (rnds.getD i 0) (cumsum pr.2) with
      | error e =>
        rw [hso, except_bind_error] at h
        exact absurd h (by simp)
      | ok c =>
        rw [hso, except_bind_ok] at h
        obtain ⟨hlen, hmem⟩ := simLoop_ok M rnds rem (i + 1) (acc ++ [c]) s
          (fun d hd => by
            rcases List.mem_append.mp hd with hd | hd
            · exact hacc d hd
            · rw [List.mem_singleton.mp hd]
              exact simOne_mem hso) h
        refine ⟨?_, hmem⟩
        rw [hlen, List.length_append, List.length_singleton]
        omega

/-- C6 (amended): whenever `Simulate(M)` returns successfully it
returns exactly `M` symbols, each from the model's alphabet; but
`Simulate(0)` does not return the empty sequence — after a successful
no-context prediction it subscripts the empty pre-drawn random array
(`rnds[0]`) and raises an index error. -/
theorem simulate_length_and_alphabet (M : SPRModel) (rnds : List ℚ) (nstar : Nat)
    (hn : 1 ≤ nstar) :
    (∀ s, Simulate M rnds nstar = .ok s → s.length = nstar ∧ ∀ c ∈ s, c ∈ M.alpha) ∧
      (∀ M' : SPRModel, (∃ pr, Predict M' none = .ok pr) →
        Simulate M' [] 0 = .error .indexOut) := by
  constructor
  · intro s h
    unfold Simulate at h
    cases hp : Predict M none with
    | error e =>
      rw [hp, except_bind_error] at h
      exact absurd h (by simp)
    | ok pr =>
      rw [hp, except_bind_ok] at h
      cases hh : rnds.head? with
      | none =>
        rw [hh] at h
        exact absurd h (by simp)
      | some r0 =>
        rw [hh] at h
        dsimp only at h
        cases hso : simOne M.alpha r0 (cumsum pr.2) with
        | error e =>
          rw [hso, except_bind_error] at h
          exact absurd h (by simp)
        | ok s0 =>
          rw [hso, except_bind_ok] at h
          obtain ⟨hlen, hmem⟩ := simLoop_ok M rnds (nstar - 1) 1 [s0] s
            (fun d hd => by
              rw [List.mem_singleton.mp hd]
              exact simOne_mem hso) h
          refine ⟨?_, hmem⟩
          rw [hlen, List.length_singleton]
          omega
  · rintro M' ⟨pr, hpr⟩
    unfold Simulate
    rw [hpr, except_bind_ok]
    rfl

/-- Witness for C6's amended theorem at a concrete model and one draw. -/
theorem simulate_length_and_alphabet_witness :
    1 ≤ 1 ∧
      ((∀ s, Simulate flipModel [1/2] 1 = .ok s →
          s.length = 1 ∧ ∀ c ∈ s, c ∈ flipModel.alpha) ∧
        (∀ M' : SPRModel, (∃ pr, Predict M' none = .ok pr) →
          Simulate M' [] 0 = .error .indexOut)) :=
  ⟨by decide, simulate_length_and_alphabet flipModel [1/2] 1 (by decide)⟩

/-- Counterexample to C6 as stated: `Simulate(0)` on a healthy concrete
model — its no-context prediction succeeds — raises an index error
(`rnds[0]` on the empty pre-drawn array) instead of returning the empty
sequence. -/
theorem simulate_zero_cex :
    Simulate flipModel [] 0 = .error .indexOut ∧
      Predict flipModel none = .ok ('a', [1, 0]) := by
  with_unfolding_all decide

theorem mem_npUniqueChars {c : Char} {chars : List Char} :
    c ∈ npUniqueChars chars ↔ c ∈ chars := by
  unfold npUniqueChars
  rw [List.mem_dedup]
  exact (List.perm_insertionSort _ _).mem_iff

theorem buildFold_fnd_mono (alpha seq : List Char) (p x n_p : Nat) :
    ∀ (pairs : List (Nat × List Char)) (st : List (List ℚ) × List (List Char))
      (q : List Char), q ∈ st.2 → q ∈ (pairs.foldl (buildStep alpha seq p x n_p) st).2
  | [], _, _, h => h
  | ig :: pairs, st, q, h => by
    rw [List.foldl_cons]
    refine buildFold_fnd_mono alpha seq p x n_p pairs _ q ?_
    simp only [buildStep]
    split
    · exact h
    · exact List.mem_append_left _ h

theorem buildFold_fnd_mem (alpha seq : List Char) (p x n_p : Nat) :
    ∀ (pairs : List (Nat × List Char)) (st : List (List ℚ) × List (List Char))
      (ig : Nat × List Char), ig ∈ pairs →
      ∀ c : Char, c ∈ followers seq n_p (HashSearch seq ig.2 p x) →
      (ig.2 ++ [c]) ∈ (pairs.foldl (buildStep alpha seq p x n_p) st).2
  | [], _, _, hig, _, _ => absurd hig (by simp)
  | jg :: pairs, st, ig, hig, c, hc => by
    rw [List.foldl_cons]
    rcases List.mem_cons.mp hig with heq | htail
    · subst heq
      refine buildFold_fnd_mono alpha seq p x n_p pairs _ _ ?_
      simp only [buildStep]
      have hcu : c ∈ npUniqueChars (followers seq n_p (HashSearch seq ig.2 p x)) :=
        mem_npUniqueChars.mpr hc
      have hne : (npUniqueChars (followers seq n_p (HashSearch seq ig.2 p x))).isEmpty
          = false := by
        rw [List.isEmpty_eq_false]
        exact List.ne_nil_of_mem hcu
      rw [hne]
      simp only [Bool.false_eq_true, if_false]
      refine List.mem_append_right _ ?_
      exact List.mem_map.mpr ⟨c, hcu, rfl⟩
    · exact buildFold_fnd_mem alpha seq p x n_p pairs _ ig htail c hc

theorem zipWith_fillRow_getD_ne (alpha : List Char) (rows : List (List ℚ))
    (iw i0 j : Nat) (U : List (Char × Nat)) (hst : rows.length = alpha.length)
    (hne : iw ≠ i0) :
    (((List.zipWith (fun alph row => fillRow row iw U alph) alpha rows).getD j []).getD i0 0) =
      ((rows.getD j []).getD i0 0) := by
  by_cases hj : j < alpha.length
  · have hzl : j < (List.zipWith (fun alph row => fillRow row iw U alph) alpha rows).length := by
      rw [List.length_zipWith, hst, min_self]
      exact hj
    rw [List.getD_eq_getElem _ _ hzl, List.getElem_zipWith,
      List.getD_eq_getElem rows _ (by omega : j < rows.length)]
    unfold fillRow
    split
    · rfl
    · rw [List.getD_eq_getElem?_getD, List.getElem?_set_ne hne,
        ← List.getD_eq_getElem?_getD]
  · have hz1 : (List.zipWith (fun alph row => fillRow row iw U alph) alpha rows).getD j []
        = [] :=
      List.getD_eq_default _ _ (by rw [List.length_zipWith, hst, min_self]; omega)
    have hz2 : rows.getD j [] = [] := List.getD_eq_default _ _ (by omega)
    rw [hz1, hz2]

theorem buildStep_col_ne (alpha seq : List Char) (p x n_p : Nat)
    (st : List (List ℚ) × List (List Char)) (ig : Nat × List Char) (i0 j : Nat)
    (hst : st.1.length = alpha.length) (hne : ig.1 ≠ i0) :
    (((buildStep alpha seq p x n_p st ig).1.getD j []).getD i0 0) =
      ((st.1.getD j []).getD i0 0) := by
  simp only [buildStep]
  split
  · rfl
  · exact zipWith_fillRow_getD_ne alpha st.1 ig.1 i0 j _ hst hne

theorem buildStep_shape (alpha seq : List Char) (p x n_p n : Nat)
    (st : List (List ℚ) × List (List Char)) (ig : Nat × List Char)
    (h1 : st.1.length = alpha.length) (h2 : ∀ row ∈ st.1, row.length = n) :
    ((buildStep alpha seq p x n_p st ig).1.length = alpha.length) ∧
      (∀ row ∈ (buildStep alpha seq p x n_p st ig).1, row.length = n) := by
  simp only [buildStep]
  split
  · exact ⟨h1, h2⟩
  · constructor
    · rw [List.length_zipWith, h1, min_self]
    · intro row hrow
      obtain ⟨a, b, _, hb, hroweq⟩ := exists_of_mem_zipWith hrow
      rw [hroweq, fillRow_length]
      exact h2 _ hb

theorem foldl_shape (alpha seq : List Char) (p x n_p n : Nat) :
    ∀ (pairs : List (Nat × List Char)) (st : List (List ℚ) × List (List Char)),
      st.1.length = alpha.length → (∀ row ∈ st.1, row.length = n) →
      ((pairs.foldl (buildStep alpha seq p x n_p) st).1.length = alpha.length) ∧
        (∀ row ∈ (pairs.foldl (buildStep alpha seq p x n_p) st).1, row.length = n)
  | [], _, h1, h2 => ⟨h1, h2⟩
  | ig :: pairs, st, h1, h2 => by
    rw [List.foldl_cons]
    obtain ⟨h1', h2'⟩ := buildStep_shape alpha seq p x n_p n st ig h1 h2
    exact foldl_shape alpha seq p x n_p n pairs _ h1' h2'

theorem foldl_preserves_col (alpha seq : List Char) (p x n_p n : Nat) :
    ∀ (pairs : List (Nat × List Char)) (st : List (List ℚ) × List (List Char)) (i0 : Nat),
      st.1.length = alpha.length → (∀ row ∈ st.1, row.length = n) →
      (∀ pr ∈ pairs, pr.1 ≠ i0) → ∀ j : Nat,
      (((pairs.foldl (buildStep alpha seq p x n_p) st).1.getD j []).getD i0 0) =
        ((st.1.getD j []).getD i0 0)
  | [], _, _, _, _, _, _ => rfl
  | ig :: pairs, st, i0, h1, h2, hpairs, j => by
    rw [List.foldl_cons]
    obtain ⟨h1', h2'⟩ := buildStep_shape alpha seq p x n_p n st ig h1 h2
    rw [foldl_preserves_col alpha seq p x n_p n pairs _ i0 h1' h2'
      (fun pr hpr => hpairs pr (List.mem_cons_of_mem _ hpr)) j]
    exact buildStep_col_ne alpha seq p x n_p st ig i0 j h1
      (hpairs ig (List.mem_cons_self ..))

theorem buildStep_col_self (alpha seq : List Char) (p x n_p n : Nat)
    (st : List (List ℚ) × List (List Char)) (g : List Char) (i0 j : Nat)
    (h1 : st.1.length = alpha.length) (h2 : ∀ row ∈ st.1, row.length = n)
    (hi0 : i0 < n) (hj : j < alpha.length)
    (hprev : ((st.1.getD j []).getD i0 0) = 0) :
    (((buildStep alpha seq p x n_p st (i0, g)).1.getD j []).getD i0 0) =
      (((followers seq n_p (HashSearch seq g p x)).count (alpha.getD j default) : ℕ) : ℚ) := by
  simp only [buildStep]
  split
  case isTrue hemp =>
    have hchars : followers seq n_p (HashSearch seq g p x) = [] := by
      have hdn := List.isEmpty_iff.mp hemp
      unfold npUniqueChars at hdn
      rw [List.dedup_eq_nil] at hdn
      have hperm := List.perm_insertionSort (fun a b : Char => a ≤ b)
        (followers seq n_p (HashSearch seq g p x))
      rw [hdn] at hperm
      exact (List.Perm.nil_eq hperm).symm
    rw [hprev, hchars]
    simp
  case isFalse hemp =>
    have hzl : j < (List.zipWith (fun alph row => fillRow row i0
        (List.map (fun c => (c, (followers seq n_p (HashSearch seq g p x)).count c))
          (npUniqueChars (followers seq n_p (HashSearch seq g p x)))) alph)
        alpha st.1).length := by
      rw [List.length_zipWith, h1, min_self]
      exact hj
    rw [List.getD_eq_getElem _ _ hzl, List.getElem_zipWith]
    have hrowlen : st.1[j].length = n := h2 _ (List.getElem_mem _)
    unfold fillRow
    split
    case _ hfilter =>
      have hnotin : alpha[j] ∉ npUniqueChars (followers seq n_p (HashSearch seq g p x)) := by
        intro hmem
        have hpcmem : ((alpha[j], (followers seq n_p (HashSearch seq g p x)).count alpha[j]) :
            Char × Nat) ∈ List.map (fun c => (c, (followers seq n_p
              (HashSearch seq g p x)).count c))
            (npUniqueChars (followers seq n_p (HashSearch seq g p x))) :=
          List.mem_map.mpr ⟨alpha[j], hmem, rfl⟩
        have hall := List.filter_eq_nil_iff.mp hfilter
        have hcontra := hall _ hpcmem
        simp at hcontra
      have hcount : (followers seq n_p (HashSearch seq g p x)).count alpha[j] = 0 :=
        List.count_eq_zero.mpr (fun hmem => hnotin (mem_npUniqueChars.mpr hmem))
      have hgd : alpha.getD j default = alpha[j] := List.getD_eq_getElem _ _ hj
      rw [hgd, hcount]
      rw [List.getD_eq_getElem st.1 _ (by omega : j < st.1.length)] at hprev
      rw [hprev]
      simp
    case _ pc rest hfilter =>
      have hpcmem : pc ∈ List.filter (fun pc => pc.1 = alpha[j])
          (List.map (fun c => (c, (followers seq n_p (HashSearch seq g p x)).count c))
            (npUniqueChars (followers seq n_p (HashSearch seq g p x)))) := by
        rw [hfilter]
        exact List.mem_cons_self ..
      obtain ⟨hpcu, hpceq⟩ := List.mem_filter.mp hpcmem
      obtain ⟨c0, _, hc0⟩ := List.mem_map.mp hpcu
      have hpc1 : pc.1 = alpha[j] := by simpa using hpceq
      have hpc2 : pc.2 = (followers seq n_p (HashSearch seq g p x)).count alpha[j] := by
        rw [← hc0] at hpc1 ⊢
        simp only at hpc1 ⊢
        rw [hpc1]
      have hset : i0 < (st.1[j].set i0 ((pc.2 : ℕ) : ℚ)).length := by
        rw [List.length_set, hrowlen]
        exact hi0
      rw [List.getD_eq_getElem _ _ hset, List.getElem_set_self,
        List.getD_eq_getElem _ _ hj, hpc2]

theorem buildFold_col_value (alpha seq : List Char) (p x n_p n : Nat)
    (pre post : List (Nat × List Char)) (g : List Char) (i0 : Nat)
    (st : List (List ℚ) × List (List Char))
    (h1 : st.1.length = alpha.length) (h2 : ∀ row ∈ st.1, row.length = n)
    (hpre : ∀ pr ∈ pre, pr.1 ≠ i0) (hpost : ∀ pr ∈ post, pr.1 ≠ i0)
    (hi0 : i0 < n) (hprev : ∀ j', ((st.1.getD j' []).getD i0 0) = 0)
    (j : Nat) (hj : j < alpha.length) :
    ((((pre ++ (i0, g) :: post).foldl (buildStep alpha seq p x n_p) st).1.getD j []).getD
        i0 0) =
      (((followers seq n_p (HashSearch seq g p x)).count (alpha.getD j default) : ℕ) : ℚ) := by
  rw [List.foldl_append, List.foldl_cons]
  obtain ⟨hp1, hp2⟩ := foldl_shape alpha seq p x n_p n pre st h1 h2
  have hpre0 : ∀ j', (((pre.foldl (buildStep alpha seq p x n_p) st).1.getD j' []).getD
      i0 0) = 0 := fun j' => by
    rw [foldl_preserves_col alpha seq p x n_p n pre st i0 h1 h2 hpre j']
    exact hprev j'
  obtain ⟨hs1, hs2⟩ := buildStep_shape alpha seq p x n_p n _ (i0, g) hp1 hp2
  rw [foldl_preserves_col alpha seq p x n_p n post _ i0 hs1 hs2 hpost j]
  exact buildStep_col_self alpha seq p x n_p n _ g i0 j hp1 hp2 hi0 hj (hpre0 j)

theorem findIdx_lt_of_mem {ngrams : List (List Char)} {g : List Char} (hgm : g ∈ ngrams) :
    ngrams.findIdx (fun h => h = g) < ngrams.length :=
  List.findIdx_lt_length_of_exists ⟨g, hgm, by simp⟩

theorem getElem_findIdx_self {ngrams : List (List Char)} {g : List Char} (hgm : g ∈ ngrams) :
    ngrams.get ⟨ngrams.findIdx (fun h => h = g), findIdx_lt_of_mem hgm⟩ = g := by
  have := @List.findIdx_getElem _ (fun h => h = g) ngrams (findIdx_lt_of_mem hgm)
  simpa using this

theorem getD_findIdx_self {ngrams : List (List Char)} {g : List Char} (hgm : g ∈ ngrams) :
    ngrams.getD (ngrams.findIdx (fun h => h = g)) [] = g := by
  rw [List.getD_eq_getElem _ _ (findIdx_lt_of_mem hgm)]
  exact getElem_findIdx_self hgm

theorem findIdx_inj {ngrams : List (List Char)} {g g' : List Char}
    (hg : g ∈ ngrams) (hg' : g' ∈ ngrams) (hne : g' ≠ g) :
    ngrams.findIdx (fun h => h = g') ≠ ngrams.findIdx (fun h => h = g) := by
  intro heq
  apply hne
  rw [← getD_findIdx_self hg, ← getD_findIdx_self hg', heq]

theorem replicate_col_zero (S n j i0 : Nat) :
    (((List.replicate S (List.replicate n (0 : ℚ))).getD j []).getD i0 0) = 0 := by
  by_cases hj : j < S
  · have h1 : (List.replicate S (List.replicate n (0 : ℚ))).getD j [] =
        List.replicate n (0 : ℚ) := by
      rw [List.getD_eq_getElem _ _ (by rw [List.length_replicate]; exact hj)]
      simp
    rw [h1]
    by_cases hi : i0 < n
    · rw [List.getD_eq_getElem _ _ (by rw [List.length_replicate]; exact hi)]
      simp
    · exact List.getD_eq_default _ _ (by rw [List.length_replicate]; omega)
  · have h1 : (List.replicate S (List.replicate n (0 : ℚ))).getD j [] = [] :=
      List.getD_eq_default _ _ (by rw [List.length_replicate]; omega)
    rw [h1]
    rfl

theorem sum_map_add_nat (l : List Char) (f g : Char → Nat) :
    (l.map (fun a => f a + g a)).sum = (l.map f).sum + (l.map g).sum := by
  induction l with
  | nil => rfl
  | cons a l ih =>
    simp only [List.map_cons, List.sum_cons, ih]
    omega

theorem sum_indicator (c : Char) :
    ∀ (alpha : List Char), alpha.Nodup →
      (alpha.map (fun a => if (c == a) = true then 1 else 0)).sum =
        if c ∈ alpha then 1 else 0
  | [], _ => by simp
  | b :: bs, hnd => by
    obtain ⟨hb, hbs⟩ := List.nodup_cons.mp hnd
    rw [List.map_cons, List.sum_cons, sum_indicator c bs hbs]
    by_cases hcb : c = b
    · subst hcb
      rw [if_pos (by simp), if_pos (List.mem_cons_self ..), if_neg hb]
    · rw [if_neg (by simpa using fun h => hcb h)]
      by_cases hcbs : c ∈ bs
      · rw [if_pos hcbs, if_pos (List.mem_cons_of_mem _ hcbs)]
      · rw [if_neg hcbs, if_neg (by
          intro hmem
          rcases List.mem_cons.mp hmem with h | h
          · exact hcb h
          · exact hcbs h)]

theorem sum_count_eq_filter_length (alpha : List Char) (halpha : alpha.Nodup) :
    ∀ chars : List Char,
      (alpha.map (fun a => chars.count a)).sum =
        (chars.filter (fun d => d ∈ alpha)).length
  | [] => by simp
  | c :: cs => by
    have ih := sum_count_eq_filter_length alpha halpha cs
    have hcc : (alpha.map (fun a => (c :: cs).count a)).sum =
        (alpha.map (fun a => cs.count a)).sum +
          (alpha.map (fun a => if (c == a) = true then 1 else 0)).sum := by
      rw [← sum_map_add_nat]
      congr 1
      refine List.map_congr_left (fun a _ => ?_)
      exact List.count_cons a c cs
    rw [hcc, ih, sum_indicator c alpha halpha, List.filter_cons]
    by_cases hca : c ∈ alpha
    · rw [if_pos hca, if_pos (by simpa using hca), List.length_cons]
    · rw [if_neg hca, if_neg (by simpa using hca)]
      omega

/-- C10: in `BuildPTP`, a follower symbol outside the alphabet is
excluded from the candidate pattern's row counts and total (each count
tabulates an alphabet symbol's followers only, and the total counts
exactly the followers that lie in the alphabet), yet `pattern + c` is
still appended to the returned found patterns — so the found patterns
can contain strings outside the next scale's ngram set, which that
scale's candidate-index lookup cannot resolve (concretely: `"ac"` is
returned for sequence `"aca"` over `{a, b}` but is not among the
2-grams). -/
theorem buildPTP_nonalphabet_follower (alpha seq : List Char) (p x : Nat)
    (ngrams reds : List (List Char)) (halpha : alpha.Nodup) (hred : reds.Nodup)
    (hsub : ∀ g' ∈ reds, g' ∈ ngrams) (g : List Char) (hg : g ∈ reds) (c : Char)
    (hc : c ∈ followers seq (ngrams.getD 0 []).length (HashSearch seq g p x)) :
    (g ++ [c]) ∈ (BuildPTP alpha seq p x ngrams (some reds)).2 ∧
      (∀ j, j < alpha.length →
        (((BuildPTP alpha seq p x ngrams (some reds)).1.getD j []).getD
            (ngrams.findIdx (fun h => h = g)) 0) =
          (((followers seq (ngrams.getD 0 []).length (HashSearch seq g p x)).count
            (alpha.getD j default) : ℕ) : ℚ)) ∧
      totalAt alpha.length (BuildPTP alpha seq p x ngrams (some reds)).1
          (ngrams.findIdx (fun h => h = g)) =
        (((followers seq (ngrams.getD 0 []).length (HashSearch seq g p x)).filter
          (fun d => d ∈ alpha)).length : ℚ) ∧
      (['a', 'c'] ∈ (BuildPTP ['a', 'b'] ['a', 'c', 'a'] 97 31 [['a'], ['b']]
          (some [['a']])).2 ∧
        ['a', 'c'] ∉ MakenGramsOnly ['a', 'b'] 2) := by
  have hpairs : (reds.map (fun g' => ngrams.findIdx (fun h => h = g'))).zip reds =
      reds.map (fun g' => (ngrams.findIdx (fun h => h = g'), g')) := by
    have hz := List.zip_map' (fun g' => ngrams.findIdx (fun h => h = g'))
      (fun g' : List Char => g') reds
    simpa using hz
  have hBF : buildFold alpha seq p x ngrams (some reds) =
      (reds.map (fun g' => (ngrams.findIdx (fun h => h = g'), g'))).foldl
        (buildStep alpha seq p x (ngrams.getD 0 []).length)
        (List.replicate alpha.length (List.replicate ngrams.length (0 : ℚ)), []) := by
    show ((reds.map (fun g' => ngrams.findIdx (fun h => h = g'))).zip reds).foldl
      (buildStep alpha seq p x (ngrams.getD 0 []).length)
      (List.replicate alpha.length (List.replicate ngrams.length (0 : ℚ)), []) = _
    rw [hpairs]
  obtain ⟨s, u, hsplit⟩ := List.append_of_mem hg
  have hmaps : reds.map (fun g' => (ngrams.findIdx (fun h => h = g'), g')) =
      s.map (fun g' => (ngrams.findIdx (fun h => h = g'), g')) ++
        (ngrams.findIdx (fun h => h = g), g) ::
          u.map (fun g' => (ngrams.findIdx (fun h => h = g'), g')) := by
    rw [hsplit, List.map_append, List.map_cons]
  have hgin : g ∈ ngrams := hsub g hg
  have hnods : g ∉ s ∧ g ∉ u := by
    rw [hsplit] at hred
    obtain ⟨_, hgu, hdisj⟩ := List.nodup_append.mp hred
    exact ⟨fun hmem => hdisj hmem (List.mem_cons_self ..), (List.nodup_cons.mp hgu).1⟩
  have hpre : ∀ pr ∈ s.map (fun g' => (ngrams.findIdx (fun h => h = g'), g')),
      pr.1 ≠ ngrams.findIdx (fun h => h = g) := by
    intro pr hpr
    obtain ⟨g', hg's, hpr'⟩ := List.mem_map.mp hpr
    rw [← hpr']
    have hg'r : g' ∈ reds := by
      rw [hsplit]
      exact List.mem_append_left _ hg's
    refine findIdx_inj hgin (hsub g' hg'r) ?_
    intro hne
    exact hnods.1 (hne ▸ hg's)
  have hpost : ∀ pr ∈ u.map (fun g' => (ngrams.findIdx (fun h => h = g'), g')),
      pr.1 ≠ ngrams.findIdx (fun h => h = g) := by
    intro pr hpr
    obtain ⟨g', hg'u, hpr'⟩ := List.mem_map.mp hpr
    rw [← hpr']
    have hg'r : g' ∈ reds := by
      rw [hsplit]
      exact List.mem_append_right _ (List.mem_cons_of_mem _ hg'u)
    refine findIdx_inj hgin (hsub g' hg'r) ?_
    intro hne
    exact hnods.2 (hne ▸ hg'u)
  have hinit1 : (List.replicate alpha.length (List.replicate ngrams.length (0 : ℚ)),
      ([] : List (List Char))).1.length = alpha.length := List.length_replicate ..
  have hinit2 : ∀ row ∈ (List.replicate alpha.length
      (List.replicate ngrams.length (0 : ℚ)), ([] : List (List Char))).1,
      row.length = ngrams.length := by
    intro row hrow
    rw [(List.mem_replicate.mp hrow).2]
    exact List.length_replicate ..
  have hi0 : ngrams.findIdx (fun h => h = g) < ngrams.length := findIdx_lt_of_mem hgin
  obtain ⟨hcl, hcrows, _⟩ := buildFold_shape alpha seq p x ngrams (some reds)
  have hcol : ∀ j, j < alpha.length →
      (((buildFold alpha seq p x ngrams (some reds)).1.getD j []).getD
          (ngrams.findIdx (fun h => h = g)) 0) =
        (((followers seq (ngrams.getD 0 []).length (HashSearch seq g p x)).count
          (alpha.getD j default) : ℕ) : ℚ) := by
    intro j hj
    rw [hBF, hmaps]
    exact buildFold_col_value alpha seq p x (ngrams.getD 0 []).length ngrams.length
      _ _ g _ _ hinit1 hinit2 hpre hpost hi0
      (fun j' => replicate_col_zero alpha.length ngrams.length j'
        (ngrams.findIdx (fun h => h = g))) j hj
  refine ⟨?_, ?_, ?_, by decide, by decide⟩
  · show (g ++ [c]) ∈ (buildFold alpha seq p x ngrams (some reds)).2
    rw [hBF]
    have hmem : ((ngrams.findIdx (fun h => h = g), g) : Nat × List Char) ∈
        reds.map (fun g' => (ngrams.findIdx (fun h => h = g'), g')) :=
      List.mem_map.mpr ⟨g, hg, rfl⟩
    exact buildFold_fnd_mem alpha seq p x (ngrams.getD 0 []).length _ _
      (ngrams.findIdx (fun h => h = g), g) hmem c hc
  · intro j hj
    have hPTP : (BuildPTP alpha seq p x ngrams (some reds)).1.getD j [] =
        (buildFold alpha seq p x ngrams (some reds)).1.getD j [] := by
      show (((buildFold alpha seq p x ngrams (some reds)).1 ++
        [buildTots (buildFold alpha seq p x ngrams (some reds)).1]) ++
          buildRel (buildFold alpha seq p x ngrams (some reds)).1
            (buildTots (buildFold alpha seq p x ngrams (some reds)).1)).getD j [] = _
      rw [List.append_assoc]
      rw [List.getD_eq_getElem _ _ (by rw [List.length_append]; omega),
        List.getElem_append_left (by omega), ← List.getD_eq_getElem]
    rw [hPTP]
    exact hcol j hj
  · have hget : (BuildPTP alpha seq p x ngrams (some reds)).1.getD alpha.length [] =
        buildTots (buildFold alpha seq p x ngrams (some reds)).1 := by
      show (((buildFold alpha seq p x ngrams (some reds)).1 ++
        [buildTots (buildFold alpha seq p x ngrams (some reds)).1]) ++
          buildRel (buildFold alpha seq p x ngrams (some reds)).1
            (buildTots (buildFold alpha seq p x ngrams (some reds)).1)).getD
          alpha.length [] = _
      rw [List.append_assoc]
      rw [List.getD_eq_getElem _ _ (by
        rw [List.length_append, List.length_append, List.length_cons]
        omega)]
      rw [List.getElem_append_right (by omega)]
      simp [hcl]
    unfold totalAt
    rw [hget, buildTots_getD hcrows]
    have hmapeq : (buildFold alpha seq p x ngrams (some reds)).1.map
        (fun row => row.getD (ngrams.findIdx (fun h => h = g)) 0) =
        alpha.map (fun a => (((followers seq (ngrams.getD 0 []).length
          (HashSearch seq g p x)).count a : ℕ) : ℚ)) := by
      refine List.ext_getElem ?_ ?_
      · rw [List.length_map, List.length_map, hcl]
      intro j hj1 hj2
      rw [List.getElem_map, List.getElem_map]
      have hjl : j < alpha.length := by
        rw [List.length_map] at hj2
        exact hj2
      have := hcol j hjl
      rw [List.getD_eq_getElem _ _ (by omega : j <
        (buildFold alpha seq p x ngrams (some reds)).1.length)] at this
      rw [this, List.getD_eq_getElem _ _ hjl]
    rw [hmapeq]
    calc (alpha.map (fun a => (((followers seq (ngrams.getD 0 []).length
            (HashSearch seq g p x)).count a : ℕ) : ℚ))).sum
        = ((alpha.map (fun a => (followers seq (ngrams.getD 0 []).length
            (HashSearch seq g p x)).count a)).map (fun n : ℕ => (n : ℚ))).sum := by
          rw [List.map_map]
          rfl
      _ = (((alpha.map (fun a => (followers seq (ngrams.getD 0 []).length
            (HashSearch seq g p x)).count a)).sum : ℕ) : ℚ) :=
          (Nat.cast_list_sum _).symm
      _ = (((followers seq (ngrams.getD 0 []).length
            (HashSearch seq g p x)).filter (fun d => d ∈ alpha)).length : ℚ) := by
          rw [sum_count_eq_filter_length alpha halpha]

/-- Witness for C10's theorem: sequence `"aca"` over alphabet `{a, b}`,
candidate `"a"`, follower `'c'` outside the alphabet. -/
theorem buildPTP_nonalphabet_follower_witness :
    ((['a', 'b'] : List Char).Nodup ∧ ([['a']] : List (List Char)).Nodup ∧
        (∀ g' ∈ ([['a']] : List (List Char)), g' ∈ ([['a'], ['b']] : List (List Char))) ∧
        (['a'] : List Char) ∈ ([['a']] : List (List Char)) ∧
        'c' ∈ followers ['a', 'c', 'a']
          (([['a'], ['b']] : List (List Char)).getD 0 []).length
          (HashSearch ['a', 'c', 'a'] ['a'] 97 31)) ∧
      ((['a'] ++ ['c']) ∈ (BuildPTP ['a', 'b'] ['a', 'c', 'a'] 97 31 [['a'], ['b']]
          (some [['a']])).2 ∧
        (∀ j, j < (['a', 'b'] : List Char).length →
          (((BuildPTP ['a', 'b'] ['a', 'c', 'a'] 97 31 [['a'], ['b']]
              (some [['a']])).1.getD j []).getD
              (([['a'], ['b']] : List (List Char)).findIdx (fun h => h = ['a'])) 0) =
            (((followers ['a', 'c', 'a']
                (([['a'], ['b']] : List (List Char)).getD 0 []).length
                (HashSearch ['a', 'c', 'a'] ['a'] 97 31)).count
              ((['a', 'b'] : List Char).getD j default) : ℕ) : ℚ)) ∧
        totalAt (['a', 'b'] : List Char).length
            (BuildPTP ['a', 'b'] ['a', 'c', 'a'] 97 31 [['a'], ['b']]
              (some [['a']])).1
            (([['a'], ['b']] : List (List Char)).findIdx (fun h => h = ['a'])) =
          (((followers ['a', 'c', 'a']
              (([['a'], ['b']] : List (List Char)).getD 0 []).length
              (HashSearch ['a', 'c', 'a'] ['a'] 97 31)).filter
            (fun d => d ∈ (['a', 'b'] : List Char))).length : ℚ) ∧
        ((['a', 'c'] : List Char) ∈ (BuildPTP ['a', 'b'] ['a', 'c', 'a'] 97 31
            [['a'], ['b']] (some [['a']])).2 ∧
          (['a', 'c'] : List Char) ∉ MakenGramsOnly ['a', 'b'] 2)) :=
  ⟨⟨by decide, by decide, by decide, by decide, by decide⟩,
    buildPTP_nonalphabet_follower ['a', 'b'] ['a', 'c', 'a'] 97 31 [['a'], ['b']]
      [['a']] (by decide) (by decide) (by decide) ['a'] (by decide) 'c' (by decide)⟩

theorem sum_ite_k (c : Char) (k : Nat) :
    ∀ alpha : List Char,
      (alpha.map (fun a => if (a == c) = true then k else 0)).sum = k * alpha.count c
  | [] => by simp
  | a :: as => by
    rw [List.map_cons, List.sum_cons, sum_ite_k c k as, List.count_cons]
    by_cases hac : a = c
    · rw [if_pos (by simpa using hac), if_pos (by simpa using hac)]
      ring
    · rw [if_neg (by simpa using hac), if_neg (by simpa using hac)]
      ring

theorem charSort_replicate {alpha : List Char} (hs : List.Sorted (· < ·) alpha)
    (k : Nat) :
    charSort ((List.replicate k alpha).flatten) =
      (alpha.map (fun a => List.replicate k a)).flatten := by
  unfold charSort
  refine List.eq_of_perm_of_sorted ?_ (List.sorted_insertionSort _ _) ?_
  · refine ((List.perm_insertionSort _ _).trans ?_)
    rw [List.perm_iff_count]
    intro c
    rw [List.count_flatten, List.count_flatten, List.map_replicate,
      List.sum_replicate, smul_eq_mul, List.map_map]
    have : (List.map (List.count c ∘ fun a => List.replicate k a) alpha).sum =
        (alpha.map (fun a => if (a == c) = true then k else 0)).sum := by
      congr 1
      refine List.map_congr_left (fun a _ => ?_)
      simp only [Function.comp_apply, List.count_replicate]
    rw [this, sum_ite_k, mul_comm]
  · induction alpha with
    | nil => simp [List.Sorted]
    | cons a as ih =>
      obtain ⟨ha, has⟩ := List.sorted_cons.mp hs
      rw [List.map_cons, List.flatten_cons]
      unfold List.Sorted
      rw [List.pairwise_append]
      refine ⟨?_, ih has, ?_⟩
      · rw [List.pairwise_replicate]
        right
        exact le_refl a
      · intro y hy z hz
        rw [(List.mem_replicate.mp hy).2]
        obtain ⟨l, hl, hzl⟩ := List.mem_flatten.mp hz
        obtain ⟨b, hb, hbl⟩ := List.mem_map.mp hl
        rw [← hbl] at hzl
        rw [(List.mem_replicate.mp hzl).2]
        exact le_of_lt (ha b hb)

theorem length_flatten_replicate {α : Type} (m : Nat) (B : List α) :
    (List.replicate m B).flatten.length = m * B.length := by
  rw [List.length_flatten, List.map_replicate, List.sum_replicate, smul_eq_mul]

theorem getD_flatten_replicate {B : List Char} {m q : Nat} (d : Char)
    (hq : q < m * B.length) :
    ((List.replicate m B).flatten.getD q d) = B.getD (q % B.length) d := by
  induction m generalizing q with
  | zero =>
    rw [Nat.zero_mul] at hq
    omega
  | succ m ih =>
    have hq' : q < m * B.length + B.length := by
      rw [Nat.succ_mul] at hq
      exact hq
    have hfl := length_flatten_replicate m B
    rw [List.replicate_succ, List.flatten_cons]
    by_cases hqb : q < B.length
    · rw [List.getD_eq_getElem _ _ (by
        rw [List.length_append]
        omega), List.getElem_append_left hqb, Nat.mod_eq_of_lt hqb,
        List.getD_eq_getElem _ _ hqb]
    · have hble : B.length ≤ q := by omega
      rw [List.getD_eq_getElem?_getD, List.getElem?_append_right hble,
        ← List.getD_eq_getElem?_getD, Nat.mod_eq_sub_mod hble]
      exact ih (by omega)

theorem getD_block {alpha : List Char} {k r : Nat} (d : Char) (hk : 0 < k)
    (hr : r < alpha.length * k) :
    ((alpha.map (fun a => List.replicate k a)).flatten.getD r d) = alpha.getD (r / k) d := by
  induction alpha generalizing r with
  | nil =>
    rw [List.length_nil, Nat.zero_mul] at hr
    omega
  | cons a as ih =>
    have hr' : r < as.length * k + k := by
      rw [List.length_cons, Nat.succ_mul] at hr
      exact hr
    rw [List.map_cons, List.flatten_cons]
    by_cases hrk : r < k
    · rw [List.getD_eq_getElem _ _ (by
        rw [List.length_append, List.length_replicate]
        omega)]
      rw [List.getElem_append_left (by rw [List.length_replicate]; omega)]
      rw [Nat.div_eq_of_lt hrk]
      simp
    · have hkr : k ≤ r := by omega
      rw [List.getD_eq_getElem?_getD,
        List.getElem?_append_right (by rw [List.length_replicate]; omega),
        List.length_replicate, ← List.getD_eq_getElem?_getD]
      rw [ih (by omega)]
      rw [Nat.div_eq_sub_div hk hkr, List.getD_cons_succ]

theorem zipWith_abs_sub_self (r : List ℚ) :
    (List.zipWith (fun q1 q2 => |q1 - q2|) r r).sum = 0 := by
  induction r with
  | nil => rfl
  | cons q r ih => simp [ih]

theorem zipWith_rows_self (l : List (List ℚ)) :
    (List.zipWith (fun r1 r2 => (List.zipWith (fun q1 q2 => |q1 - q2|) r1 r2).sum)
      l l).sum = 0 := by
  induction l with
  | nil => rfl
  | cons r l ih => simp [zipWith_abs_sub_self, ih]

/-- C8: the distance between two models — any alphabet sizes, any
retained scale counts — is symmetric, and the distance from a model to
itself is 0; shape mismatches are absorbed by the total zero-padding
embedding (`padTo`), so no shape error can surface. -/
theorem distance_symm_self (a b : SPRModel) :
    Distance a b = Distance b a ∧ Distance a a = 0 := by
  constructor
  · simp only [Distance]
    rw [Nat.max_comm a.n_p b.n_p, Nat.max_comm a.alpha.length b.alpha.length]
    congr 1
    refine List.map_congr_left (fun k hk => ?_)
    exact congrArg List.sum
      (List.zipWith_comm_of_comm _
        (fun r1 r2 => congrArg List.sum
          (List.zipWith_comm_of_comm _ (fun q1 q2 => abs_sub_comm q1 q2) r1 r2)) _ _)
  · simp only [Distance]
    refine List.sum_eq_zero (fun v hv => ?_)
    obtain ⟨k, _, hveq⟩ := List.mem_map.mp hv
    rw [← hveq]
    exact zipWith_rows_self _

theorem buildPTPs_sparsity_truncation_cex :
    (BuildPTPs ['a', 'b'] ['a', 'a', 'a', 'a'] 4241 42 2 (2/5)).n_p = 1 ∧
      (BuildPTPs ['a', 'b'] ['a', 'a', 'a', 'a'] 4241 42 2 (2/5)).n_p < 2 ∧
      (buildLoop ['a', 'b'] ['a', 'a', 'a', 'a'] 4241 42 (2/5)
        (MakenGramsFull ['a', 'b'] ((2 : Nat) : Int)) 2 0
        (npUniquePats ((['a', 'a', 'a', 'a'] : List Char).map (fun c => [c])))).siL.length
        = 2 ∧
      (BuildPTPs ['a', 'b'] ['a', 'a', 'a', 'a'] 4241 42 2 (2/5)).si.length = 1 ∧
      (BuildPTPs ['a', 'b'] ['a', 'a', 'a', 'a'] 4241 42 2 (2/5)).obs.length = 1 ∧
      (BuildPTPs ['a', 'b'] ['a', 'a', 'a', 'a'] 4241 42 2 (2/5)).poss.length = 1 := by
  with_unfolding_all decide

theorem dropLast_map_range {α : Type} (f : Nat → α) (n : Nat) :
    ((List.range (n + 1)).map f).dropLast = (List.range n).map f := by
  rw [List.range_succ, List.map_append, List.map_singleton, List.dropLast_concat]

theorem flatten_replicate_nil {α : Type} (k : Nat) :
    (List.replicate k ([] : List α)).flatten = [] := by
  induction k with
  | zero => rfl
  | succ k ih => rw [List.replicate_succ, List.flatten_cons, List.nil_append, ih]

theorem charSort_nil : charSort [] = [] := rfl

theorem length_charSort (l : List Char) : (charSort l).length = l.length :=
  List.length_insertionSort _ _

theorem makeCols_length (alpha : List Char) (L : Nat) :
    (makeCols alpha L).length = L := by
  unfold makeCols
  rw [List.length_map, List.length_range]

theorem makeCols_col_length (alpha : List Char) {L : Nat} :
    ∀ col ∈ makeCols alpha L, col.length = alpha.length ^ L := by
  intro col hcol
  unfold makeCols at hcol
  obtain ⟨c, hc, hceq⟩ := List.mem_map.mp hcol
  rw [List.mem_range] at hc
  rw [← hceq, length_flatten_replicate, length_charSort, length_flatten_replicate,
    ← pow_succ, ← pow_add]
  congr 1
  omega

theorem minLen_makeCols (alpha : List Char) {L : Nat} (hL : 1 ≤ L) :
    minLen (makeCols alpha L).reverse = alpha.length ^ L := by
  refine minLen_of_all_eq ?_ ?_
  · intro hrev
    have : (makeCols alpha L).reverse.length = 0 := by rw [hrev]; rfl
    rw [List.length_reverse, makeCols_length] at this
    omega
  · intro row hrow
    exact makeCols_col_length alpha row (List.mem_reverse.mp hrow)

theorem col_getD {alpha : List Char} (hs : List.Sorted (· < ·) alpha)
    {L cnt q : Nat} (hcnt : cnt < L) (hq : q < alpha.length ^ L) :
    ((List.replicate (alpha.length ^ (L - 1 - cnt))
      (charSort ((List.replicate (alpha.length ^ cnt) alpha).flatten))).flatten).getD
        q default =
      alpha.getD ((q / alpha.length ^ cnt) % alpha.length) default := by
  have hS : 0 < alpha.length := by
    rcases Nat.eq_zero_or_pos alpha.length with h0 | h0
    · rw [h0, Nat.zero_pow (by omega)] at hq
      omega
    · exact h0
  have hBlen : (charSort ((List.replicate (alpha.length ^ cnt) alpha).flatten)).length
      = alpha.length ^ (cnt + 1) := by
    rw [length_charSort, length_flatten_replicate, ← pow_succ]
  rw [getD_flatten_replicate _ (by
    rw [hBlen, ← pow_add]
    have hexp : L - 1 - cnt + (cnt + 1) = L := by omega
    rw [hexp]
    exact hq)]
  rw [hBlen, charSort_replicate hs,
    getD_block _ (pow_pos hS cnt) (by
      calc q % alpha.length ^ (cnt + 1) < alpha.length ^ (cnt + 1) :=
            Nat.mod_lt _ (pow_pos hS _)
        _ = alpha.length * alpha.length ^ cnt := by ring)]
  rw [pow_succ, Nat.mod_mul_right_div_self]

theorem rowsOf_makeCols {alpha : List Char} (hs : List.Sorted (· < ·) alpha)
    {L : Nat} (hL : 1 ≤ L) :
    rowsOf (makeCols alpha L) = lexEnum alpha L := by
  unfold rowsOf pyZip lexEnum
  rw [minLen_makeCols alpha hL]
  refine List.map_congr_left (fun q hq => ?_)
  rw [List.mem_range] at hq
  unfold lexRow makeCols
  refine List.ext_getElem ?_ ?_
  · simp
  · intro j h1 h2
    rw [List.length_map, List.length_range] at h2
    simp only [List.getElem_map, List.getElem_reverse, List.getElem_range,
      List.length_map, List.length_range, List.length_reverse]
    exact col_getD hs (show L - 1 - j < L by omega) hq

theorem makeCols_nil (L : Nat) : makeCols [] L = List.replicate L ([] : List Char) := by
  unfold makeCols
  refine List.ext_getElem (by simp) ?_
  intro i h1 h2
  simp only [List.getElem_map, List.getElem_range, List.getElem_replicate,
    flatten_replicate_nil, charSort_nil]

theorem take_flatten_replicate {α : Type} (B : List α) :
    ∀ {k m : Nat}, k ≤ m →
      ((List.replicate m B).flatten).take (k * B.length) =
        (List.replicate k B).flatten := by
  intro k
  induction k with
  | zero =>
    intro m _
    rw [Nat.zero_mul, List.take_zero]
    rfl
  | succ k ih =>
    intro m hkm
    match m, hkm with
    | m + 1, hkm =>
      rw [List.replicate_succ, List.replicate_succ, List.flatten_cons, List.flatten_cons,
        Nat.succ_mul, Nat.add_comm (k * B.length) B.length, List.take_append,
        ih (by omega)]

theorem charSort_block_length (alpha : List Char) (cnt : Nat) :
    (charSort ((List.replicate (alpha.length ^ cnt) alpha).flatten)).length
      = alpha.length ^ (cnt + 1) := by
  rw [length_charSort, length_flatten_replicate, ← pow_succ]

theorem makeCols_step (alpha : List Char) (n : Nat) :
    (makeCols alpha (n + 1)).dropLast.map
        (fun col => col.take (alpha.length ^ n)) =
      makeCols alpha n := by
  rcases Nat.eq_zero_or_pos alpha.length with hS | hS
  · have halpha : alpha = [] := List.length_eq_zero.mp hS
    subst halpha
    rw [makeCols_nil, makeCols_nil, List.replicate_succ', List.dropLast_concat]
    simp only [List.map_replicate, List.take_nil]
  · unfold makeCols
    rw [dropLast_map_range, List.map_map]
    refine List.map_congr_left (fun cnt hcnt => ?_)
    rw [List.mem_range] at hcnt
    simp only [Function.comp_apply, Nat.add_sub_cancel]
    have hc : alpha.length ^ n =
        alpha.length ^ (n - 1 - cnt) *
          (charSort ((List.replicate (alpha.length ^ cnt) alpha).flatten)).length := by
      rw [charSort_block_length, ← pow_add]
      congr 1
      omega
    rw [hc, take_flatten_replicate _ (Nat.pow_le_pow_right hS (by omega))]

theorem tearDown_makeCols (alpha : List Char) :
    ∀ cnt : Nat, tearDown alpha (makeCols alpha (cnt + 1)) cnt =
      (List.range (cnt - 1)).map (fun t => rowsOf (makeCols alpha (cnt - t)))
  | 0 => rfl
  | 1 => rfl
  | c + 2 => by
    simp only [tearDown]
    rw [makeCols_step alpha (c + 2), tearDown_makeCols alpha (c + 1)]
    have h1 : c + 2 - 1 = c + 1 := by omega
    have h2 : c + 1 - 1 = c := by omega
    rw [h1, h2, List.range_succ_eq_map, List.map_cons, List.map_map]
    congr 1
    refine List.map_congr_left (fun t ht => ?_)
    simp only [Function.comp_apply]
    have h3 : c + 1 - t = c + 2 - Nat.succ t := by omega
    rw [h3]

theorem lexEnum_one (alpha : List Char) :
    lexEnum alpha 1 = alpha.map (fun c => [c]) := by
  unfold lexEnum lexRow
  refine List.ext_getElem ?_ ?_
  · rw [List.length_map, List.length_range, List.length_map, pow_one]
  · intro i h1 h2
    rw [List.length_map, List.length_range, pow_one] at h1
    simp only [List.getElem_map, List.getElem_range]
    rw [show List.range 1 = [0] from rfl, List.map_singleton]
    congr 1
    rw [show (1 : Nat) - 1 - 0 = 0 from rfl, pow_zero, Nat.div_one,
      Nat.mod_eq_of_lt h1, List.getD_eq_getElem _ _ h1]

theorem makenGrams_list_eq {alpha : List Char} (hs : List.Sorted (· < ·) alpha) (k : Nat) :
    (rowsOf (makeCols alpha (k + 2)) ::
        tearDown alpha (makeCols alpha (k + 2)) (k + 1)) ++
      [alpha.map (fun c => [c])] =
    (List.range (k + 2)).map (fun i => lexEnum alpha (k + 2 - i)) := by
  have htd := tearDown_makeCols alpha (k + 1)
  rw [show k + 1 + 1 = k + 2 from rfl] at htd
  rw [htd]
  rw [show k + 1 - 1 = k from rfl]
  rw [List.range_succ, List.map_append, List.map_singleton]
  congr 1
  · rw [List.range_succ_eq_map, List.map_cons, List.map_map]
    congr 1
    · rw [rowsOf_makeCols hs (by omega), Nat.sub_zero]
    · refine List.map_congr_left (fun t ht => ?_)
      rw [List.mem_range] at ht
      simp only [Function.comp_apply]
      rw [rowsOf_makeCols hs (by omega)]
      congr 1
      omega
  · rw [show k + 2 - (k + 1) = 1 by omega, lexEnum_one]

theorem listFor_eq {alpha : List Char} (hs : List.Sorted (· < ·) alpha)
    {m : Int} {L : Nat} (hL : 1 ≤ L) (hLm : (L : Int) ≤ m) :
    ngramListFor alpha m L = lexEnum alpha L := by
  have hLn : L ≤ m.toNat := by omega
  have hn1 : 1 ≤ m.toNat := by omega
  simp only [ngramListFor, MakenGramsFull]
  rcases Nat.lt_or_ge m.toNat 2 with h2 | h2
  · have hm1 : m.toNat = 1 := by omega
    have hL1 : L = 1 := by omega
    rw [hm1, hL1]
    rw [show (1 : Nat) - 1 = 0 from rfl]
    simp only [tearDown, List.singleton_append, List.reverse_cons, List.reverse_nil,
      List.nil_append, List.getD_cons_zero]
    exact (lexEnum_one alpha).symm
  · obtain ⟨k, hk⟩ : ∃ k, m.toNat = k + 2 := ⟨m.toNat - 2, by omega⟩
    rw [hk]
    rw [show k + 2 - 1 = k + 1 from rfl, makenGrams_list_eq hs k]
    rw [List.getD_eq_getElem _ _ (by
      rw [List.length_reverse, List.length_map, List.length_range]
      omega)]
    rw [List.getElem_reverse]
    simp only [List.length_map, List.length_range, List.getElem_map, List.getElem_range]
    congr 1
    omega

theorem digit_mod_pow {S : Nat} (hS : 0 < S) (q e L' : Nat) (he : e < L') :
    q / S ^ e % S = q % S ^ L' / S ^ e % S := by
  conv_lhs => rw [← Nat.div_add_mod q (S ^ L')]
  have h1 : S ^ L' * (q / S ^ L') + q % S ^ L' =
      S ^ e * (S * (S ^ (L' - e - 1) * (q / S ^ L'))) + q % S ^ L' := by
    have hpow : S ^ e * (S * S ^ (L' - e - 1)) = S ^ L' := by
      rw [← pow_succ', ← pow_add]
      congr 1
      omega
    rw [← hpow]
    ring
  rw [h1, Nat.mul_add_div (pow_pos hS e), Nat.mul_add_mod]

theorem lexRow_succ (alpha : List Char) {L : Nat} (hS : 0 < alpha.length) (q : Nat) :
    lexRow alpha (L + 1) q =
      alpha.getD (q / alpha.length ^ L % alpha.length) default ::
        lexRow alpha L (q % alpha.length ^ L) := by
  unfold lexRow
  rw [List.range_succ_eq_map, List.map_cons, List.map_map]
  congr 1
  refine List.map_congr_left (fun j hj => ?_)
  rw [List.mem_range] at hj
  simp only [Function.comp_apply]
  show alpha.getD (q / alpha.length ^ (L + 1 - 1 - Nat.succ j) % alpha.length) default = _
  rw [show L + 1 - 1 - Nat.succ j = L - 1 - j from by omega,
    digit_mod_pow hS q (L - 1 - j) L (by omega)]

theorem lexRow_lt_lex {alpha : List Char} {r : Char → Char → Prop}
    (hr : ∀ i j : Nat, j < alpha.length → i < j →
      r (alpha.getD i default) (alpha.getD j default)) :
    ∀ (L q q' : Nat), q < q' → q' < alpha.length ^ L →
      List.Lex r (lexRow alpha L q) (lexRow alpha L q') := by
  intro L
  induction L with
  | zero =>
    intro q q' hqq hq'
    rw [pow_zero] at hq'
    omega
  | succ L ih =>
    intro q q' hqq hq'
    have hS : 0 < alpha.length := by
      rcases Nat.eq_zero_or_pos alpha.length with h0 | h0
      · rw [h0, Nat.zero_pow (by omega)] at hq'
        omega
      · exact h0
    rw [lexRow_succ alpha hS q, lexRow_succ alpha hS q']
    have hd' : q' / alpha.length ^ L < alpha.length := by
      rw [Nat.div_lt_iff_lt_mul (pow_pos hS L)]
      calc q' < alpha.length ^ (L + 1) := hq'
        _ = alpha.length * alpha.length ^ L := by ring
    rcases Nat.lt_or_ge (q / alpha.length ^ L) (q' / alpha.length ^ L) with hlt | hge
    · refine List.Lex.rel ?_
      rw [Nat.mod_eq_of_lt (lt_trans hlt hd'), Nat.mod_eq_of_lt hd']
      exact hr _ _ hd' hlt
    · have heq : q / alpha.length ^ L = q' / alpha.length ^ L :=
        le_antisymm (Nat.div_le_div_right (le_of_lt hqq)) hge
      rw [heq]
      refine List.Lex.cons ?_
      refine ih (q % alpha.length ^ L) (q' % alpha.length ^ L) ?_
        (Nat.mod_lt _ (pow_pos hS L))
      have h1 := Nat.div_add_mod q (alpha.length ^ L)
      have h2 := Nat.div_add_mod q' (alpha.length ^ L)
      rw [heq] at h1
      omega

theorem lexEnum_pairwise {alpha : List Char} {r : Char → Char → Prop}
    (hr : ∀ i j : Nat, j < alpha.length → i < j →
      r (alpha.getD i default) (alpha.getD j default)) (L : Nat) :
    (lexEnum alpha L).Pairwise (List.Lex r) := by
  unfold lexEnum
  rw [List.pairwise_map, List.pairwise_iff_getElem]
  intro i j hi hj hij
  rw [List.length_range] at hi hj
  simp only [List.getElem_range]
  exact lexRow_lt_lex hr L i j hij hj

theorem sorted_getD_lt {alpha : List Char} (hs : List.Sorted (· < ·) alpha) :
    ∀ i j : Nat, j < alpha.length → i < j →
      alpha.getD i default < alpha.getD j default := by
  intro i j hj hij
  rw [List.getD_eq_getElem _ _ (lt_trans hij hj), List.getD_eq_getElem _ _ hj]
  exact List.pairwise_iff_getElem.mp hs i j (lt_trans hij hj) hj hij

theorem sorted_getD_declLt {alpha : List Char} (hs : List.Sorted (· < ·) alpha) :
    ∀ i j : Nat, j < alpha.length → i < j →
      declLt alpha (alpha.getD i default) (alpha.getD j default) := by
  intro i j hj hij
  have hnd : alpha.Nodup := hs.nodup
  unfold declLt
  rw [List.getD_eq_getElem _ _ (lt_trans hij hj), List.getD_eq_getElem _ _ hj,
    List.indexOf_getElem hnd i (lt_trans hij hj), List.indexOf_getElem hnd j hj]
  exact hij

theorem lex_lt_irrefl : ∀ l : List Char, ¬ List.Lex (· < ·) l l := by
  intro l
  induction l with
  | nil =>
    intro h
    cases h
  | cons a l ih =>
    intro h
    cases h with
    | cons h' => exact ih h'
    | rel hr => exact lt_irrefl a hr

theorem lexEnum_nodup {alpha : List Char} (hs : List.Sorted (· < ·) alpha) (L : Nat) :
    (lexEnum alpha L).Nodup := by
  refine (lexEnum_pairwise (sorted_getD_lt hs) L).imp ?_
  intro a b hlex heq
  rw [heq] at hlex
  exact lex_lt_irrefl _ hlex

theorem lexEnum_length (alpha : List Char) (L : Nat) :
    (lexEnum alpha L).length = alpha.length ^ L := by
  unfold lexEnum
  rw [List.length_map, List.length_range]

theorem lexRow_dropLast (alpha : List Char) {K : Nat} (q : Nat) :
    (lexRow alpha (K + 1) q).dropLast = lexRow alpha K (q / alpha.length) := by
  unfold lexRow
  rw [dropLast_map_range]
  refine List.map_congr_left (fun j hj => ?_)
  rw [List.mem_range] at hj
  have h1 : K + 1 - 1 - j = K - j := by omega
  have h2 : q / alpha.length / alpha.length ^ (K - 1 - j) =
      q / alpha.length ^ (K - j) := by
    rw [Nat.div_div_eq_div_mul, ← pow_succ', show K - 1 - j + 1 = K - j from by omega]
  rw [h1, h2]

theorem lexEnum_dropLast (alpha : List Char) {K : Nat} (hK : 1 ≤ K) (pat : List Char) :
    pat ∈ (lexEnum alpha (K + 1)).map List.dropLast ↔ pat ∈ lexEnum alpha K := by
  unfold lexEnum
  rw [List.map_map]
  constructor
  · intro hmem
    obtain ⟨q, hq, hqe⟩ := List.mem_map.mp hmem
    rw [List.mem_range] at hq
    have hS : 0 < alpha.length := by
      rcases Nat.eq_zero_or_pos alpha.length with h0 | h0
      · rw [h0, Nat.zero_pow (by omega)] at hq
        omega
      · exact h0
    refine List.mem_map.mpr ⟨q / alpha.length, ?_, ?_⟩
    · rw [List.mem_range, Nat.div_lt_iff_lt_mul hS]
      calc q < alpha.length ^ (K + 1) := hq
        _ = alpha.length ^ K * alpha.length := by ring
    · rw [← hqe]
      simp only [Function.comp_apply]
      exact (lexRow_dropLast alpha q).symm
  · intro hmem
    obtain ⟨k, hk, hke⟩ := List.mem_map.mp hmem
    rw [List.mem_range] at hk
    have hS : 0 < alpha.length := by
      rcases Nat.eq_zero_or_pos alpha.length with h0 | h0
      · rw [h0, Nat.zero_pow (by omega)] at hk
        omega
      · exact h0
    refine List.mem_map.mpr ⟨k * alpha.length, ?_, ?_⟩
    · rw [List.mem_range, pow_succ]
      exact (Nat.mul_lt_mul_right hS).mpr hk
    · simp only [Function.comp_apply]
      rw [lexRow_dropLast alpha, Nat.mul_div_cancel k hS]
      exact hke

/-- C4 (corrected): for every alphabet declared in strictly ascending
native character order and every `maxLength >= 1`, and for every `L` in
`1..maxLength`, the ngram list `MakenGrams` generates for length `L`
holds exactly `S^L` patterns, pairwise distinct, sorted both by the
native lexicographic string order (Python's `tmp.sort()` order) and — as
the two orders coincide on such an alphabet — by the lexicographic order
the declared alphabet order induces; and for `L >= 2` the set of
length-`(L-1)` prefixes of the length-`L` list equals the length-`(L-1)`
list as a set.  The declared-order sortedness (and hence the claim as
stated, which quantifies over every alphabet) fails when the alphabet is
declared in an order other than ascending native order, because
`MakenGrams` sorts with Python's native character comparison. -/
theorem makenGrams_lex_enumeration (alpha : List Char) (m : Int) (L : Nat)
    (hs : List.Sorted (· < ·) alpha) (hL : 1 ≤ L) (hLm : (L : Int) ≤ m) :
    (ngramListFor alpha m L).length = alpha.length ^ L ∧
    (ngramListFor alpha m L).Nodup ∧
    List.Sorted (List.Lex (· < ·)) (ngramListFor alpha m L) ∧
    List.Sorted (List.Lex (declLt alpha)) (ngramListFor alpha m L) ∧
    (2 ≤ L → ∀ pat, (pat ∈ (ngramListFor alpha m L).map List.dropLast ↔
      pat ∈ ngramListFor alpha m (L - 1))) := by
  rw [listFor_eq hs hL hLm]
  refine ⟨lexEnum_length alpha L, lexEnum_nodup hs L,
    lexEnum_pairwise (sorted_getD_lt hs) L,
    lexEnum_pairwise (sorted_getD_declLt hs) L, ?_⟩
  intro hL2 pat
  rw [listFor_eq hs (show 1 ≤ L - 1 by omega) (show ((L - 1 : Nat) : Int) ≤ m by omega)]
  obtain ⟨K, rfl⟩ : ∃ K, L = K + 1 := ⟨L - 1, by omega⟩
  rw [Nat.add_sub_cancel]
  exact lexEnum_dropLast alpha (show 1 ≤ K by omega) pat

theorem makenGrams_lex_enumeration_witness :
    List.Sorted (· < ·) ['a', 'b'] ∧
    ((ngramListFor ['a', 'b'] 2 2).length = (['a', 'b'] : List Char).length ^ 2 ∧
      (ngramListFor ['a', 'b'] 2 2).Nodup ∧
      List.Sorted (List.Lex (· < ·)) (ngramListFor ['a', 'b'] 2 2) ∧
      List.Sorted (List.Lex (declLt ['a', 'b'])) (ngramListFor ['a', 'b'] 2 2) ∧
      (2 ≤ 2 → ∀ pat, (pat ∈ (ngramListFor ['a', 'b'] 2 2).map List.dropLast ↔
        pat ∈ ngramListFor ['a', 'b'] 2 (2 - 1)))) :=
  ⟨by decide, makenGrams_lex_enumeration ['a', 'b'] 2 2 (by decide) (by decide) (by decide)⟩

/-- C4 counterexample: over the alphabet declared as `['b', 'a']` —
descending native character order — the 2-gram list `MakenGrams`
produces is NOT sorted in the lexicographic order induced by the
alphabet's declared order (under which `'b'` precedes `'a'`): the list
comes out in native character order `aa, ab, ba, bb` instead. -/
theorem makenGrams_declared_order_cex :
    ¬ List.Sorted (List.Lex (declLt ['b', 'a'])) (ngramListFor ['b', 'a'] 2 2) := by
  intro h
  have hlist : ngramListFor ['b', 'a'] 2 2 =
      [['a', 'a'], ['a', 'b'], ['b', 'a'], ['b', 'b']] := by decide
  rw [hlist] at h
  have h01 : List.Lex (declLt ['b', 'a']) ['a', 'a'] ['a', 'b'] :=
    List.pairwise_iff_getElem.mp h 0 1 (by decide) (by decide) (by decide)
  cases h01 with
  | rel hr => exact lt_irrefl _ hr
  | cons h' =>
    cases h' with
    | rel hr =>
      have hcontra : (1 : Nat) < 0 := hr
      omega

end SPR
